import Mathlib

/-!
# A shallow embedding of `led` (frame layout tree and pad viewport editor)

This file embeds the core data structures and operations of the `led`
prototype (file `py/led.py`: the `Frames` layout tree and the `ReplEditor`
pad/viewport model) as executable Lean definitions, and proves properties
about them.

Conventions of the embedding:
* Python integers are modelled as `Int` (they may go negative transiently).
* Python strings (buffer lines) are modelled as `List Char`.
* Python list/str indexing and slicing (including negative-index wraparound
  and slice clamping) are modelled by the `py*` helpers below.
* Operations that can raise an exception (`IndexError`), call `exit(1)`, or
  loop forever return `Option`; `none` means "no normal return".
* Fields that are pure display output and never feed back into the modelled
  state (`Pad.screen`, screen positions, borders, color themes, loggers) are
  omitted; `pad_display` only writes those fields, so it is the identity on
  the modelled state.
* Python `float` ratios are modelled as `ℚ`.  The only ratio value produced
  by the modelled operations is `0.5`, which is exact in binary floating
  point, so the rational model computes the same values as CPython there.
-/

/-- Python list index resolution: `0 ≤ i < n` is used directly, negative
indices wrap around once (`l[-1]` is the last element), anything else is an
`IndexError`. -/
def pyIdxN (n : Nat) (i : Int) : Option Nat :=
  if 0 ≤ i then
    if i < (n : Int) then some i.toNat else none
  else
    if 0 ≤ i + (n : Int) then some (i + (n : Int)).toNat else none

/-- Python `l[i]` for reading. -/
def pyGet {α : Type _} (l : List α) (i : Int) : Option α :=
  match pyIdxN l.length i with
  | none => none
  | some k => l[k]?

/-- Python `l[i] = v`. -/
def pySet {α : Type _} (l : List α) (i : Int) (v : α) : Option (List α) :=
  match pyIdxN l.length i with
  | none => none
  | some k => some (l.set k v)

/-- Python `del l[i]`. -/
def pyDel {α : Type _} (l : List α) (i : Int) : Option (List α) :=
  match pyIdxN l.length i with
  | none => none
  | some k => some (l.eraseIdx k)

/-- Python slice bound resolution for `l[:i]` / `l[i:]`: negative bounds are
relative to the end, and all bounds are clamped into `[0, n]`. -/
def pySliceIdx (n : Nat) (i : Int) : Nat :=
  if 0 ≤ i then min i.toNat n else (i + (n : Int)).toNat

/-- Python `l[:i]`. -/
def pyTake {α : Type _} (l : List α) (i : Int) : List α :=
  l.take (pySliceIdx l.length i)

/-- Python `l[i:]`. -/
def pyDrop {α : Type _} (l : List α) (i : Int) : List α :=
  l.drop (pySliceIdx l.length i)

/-- Python `l.insert(i, v)`: the insertion position is clamped into
`[0, len(l)]`, negative positions count from the end. -/
def pyInsert {α : Type _} (l : List α) (i : Int) (v : α) : List α :=
  l.insertIdx (pySliceIdx l.length i) v

/-- `Pad` (dataclass `Pad` in `py/led.py`), restricted to the fields that
participate in the viewport/cursor algorithm: viewport extent
(`width`/`height`), viewport-relative cursor (`cur_x`/`cur_y`), buffer
origin (`buf_x`/`buf_y`) and the text buffer.  The display-only fields
(`screen_pos_x/y`, `left_border`, `bottom_border`, `screen`, `color_theme`)
never influence these and are omitted. -/
structure Pad where
  width : Int
  height : Int
  cur_x : Int
  cur_y : Int
  buf_x : Int
  buf_y : Int
  buffer : List (List Char)
deriving Repr, DecidableEq

/-- The x-axis phase of `ReplEditor.pad_move` (lines 504-553 of
`py/led.py`): processed first, using the pre-move y coordinates.  `none`
models the `IndexError` raised by `pad.buffer[pad.buf_y+pad.cur_y]` when
that index is invalid.  The returned `Bool` is the `changed` flag. -/
def moveX (p : Pad) (dx x : Option Int) : Option (Pad × Bool) :=
  match x with
  | none =>
    match dx with
    | none => some (p, false)
    | some d =>
      if d < 0 then
        if 0 ≤ p.cur_x + d then some ({ p with cur_x := p.cur_x + d }, true)
        else if 0 ≤ p.buf_x + p.cur_x + d then
          let bx := p.buf_x + d
          if bx < 0 then some ({ p with buf_x := 0, cur_x := 0 }, true)
          else some ({ p with buf_x := bx }, true)
        else some ({ p with buf_x := 0, cur_x := 0 }, true)
      else if 0 < d then
        match pyGet p.buffer (p.buf_y + p.cur_y) with
        | none => none
        | some line =>
          if p.buf_x + p.cur_x < (line.length : Int) then
            if p.cur_x < p.width then some ({ p with cur_x := p.cur_x + d }, true)
            else some ({ p with buf_x := p.buf_x + d }, true)
          else some (p, false)
      else some (p, false)
  | some xv =>
    if xv = -1 then
      match pyGet p.buffer (p.buf_y + p.cur_y) with
      | none => none
      | some line =>
        let len_x : Int := line.length
        let len_w : Int := if len_x - p.width < 0 then 0 else len_x - p.width
        some ({ p with buf_x := len_w, cur_x := len_x - len_w }, true)
    else if xv = 0 then some ({ p with buf_x := 0, cur_x := 0 }, true)
    else
      match pyGet p.buffer (p.buf_y + p.cur_y) with
      | none => none
      | some line =>
        let len_x : Int := line.length
        let xc := if len_x < xv then len_x else xv
        if xc ≤ p.width then some ({ p with buf_x := 0, cur_x := xc }, true)
        else some ({ p with buf_x := xc, cur_x := 0 }, true)

/-- The y-axis phase of `ReplEditor.pad_move` (lines 554-600); it only reads
`len(pad.buffer)` and cannot fail. -/
def moveY (p : Pad) (dy y : Option Int) (changed : Bool) : Pad × Bool :=
  match y with
  | none =>
    match dy with
    | none => (p, changed)
    | some d =>
      if d < 0 then
        if 0 ≤ p.cur_y + d then ({ p with cur_y := p.cur_y + d }, true)
        else if 0 ≤ p.buf_y + p.cur_y + d then
          let by' := p.buf_y + d
          if by' < 0 then ({ p with buf_y := 0, cur_y := 0 }, true)
          else ({ p with buf_y := by' }, true)
        else ({ p with buf_y := 0, cur_y := 0 }, true)
      else if 0 < d then
        if p.buf_y + p.cur_y < (p.buffer.length : Int) - d then
          if p.cur_y < p.height - 1 then ({ p with cur_y := p.cur_y + d }, true)
          else ({ p with buf_y := p.buf_y + d }, true)
        else (p, changed)
      else (p, changed)
  | some yv =>
    if yv = -1 then
      let len_y : Int := p.buffer.length
      let len_h : Int := if len_y - p.height < 0 then 0 else len_y - p.height
      ({ p with buf_y := len_h, cur_y := len_y - len_h }, true)
    else if yv = 0 then ({ p with buf_y := 0, cur_y := 0 }, true)
    else
      let len_y : Int := p.buffer.length
      let yc := if len_y < yv then len_y else yv
      if yc ≤ p.height then ({ p with buf_y := 0, cur_y := yc }, true)
      else ({ p with buf_y := yc, cur_y := 0 }, true)

/-- The `while pad.cur_y >= pad.height` loop at the end of `pad_move`,
run with explicit fuel.  Each iteration does `buf_y += 1` and, when
`cur_y > 0`, `cur_y -= 1`.  With `height ≥ 1` the supplied fuel always
suffices; fuel exhaustion (`none`) corresponds to the cases where the
CPython loop does not terminate (`height ≤ 0 ≤ cur_y`). -/
def clampYFuel : Nat → Int → Int → Int → Option (Int × Int)
  | 0, _, _, _ => none
  | fuel + 1, bufy, cury, height =>
    if height ≤ cury then
      clampYFuel fuel (bufy + 1) (if 0 < cury then cury - 1 else cury) height
    else some (bufy, cury)

/-- Lines 601-611 of `pad_move`: clamp the absolute column back onto the
(possibly shorter) current line. -/
def clampDeltaX (p : Pad) (changed : Bool) (len_x : Int) : Pad × Bool :=
  let delta := len_x - (p.buf_x + p.cur_x)
  if delta < 0 then
    if 0 ≤ p.cur_x + delta then ({ p with cur_x := p.cur_x + delta }, true)
    else
      let bx := p.buf_x + delta
      if bx < 0 then ({ p with buf_x := 0, cur_x := 0 }, true)
      else ({ p with buf_x := bx }, true)
  else (p, changed)

/-- Lines 612-615 of `pad_move`: the `cur_x == width` wraparound. -/
def clampWidthX (pc : Pad × Bool) : Pad × Bool :=
  if pc.1.cur_x = pc.1.width then
    ({ pc.1 with buf_x := pc.1.buf_x + 1, cur_x := pc.1.cur_x - 1 }, true)
  else pc

/-- The final clamp pass of `pad_move` (lines 601-623): line-length delta
clamp, the `cur_x == width` wraparound, the `cur_y` clamp loop, and the
dead `exit(1)` guard. -/
def clampPass (p : Pad) (changed : Bool) : Option (Pad × Bool) :=
  match pyGet p.buffer (p.buf_y + p.cur_y) with
  | none => none
  | some line =>
    let pc2 := clampWidthX (clampDeltaX p changed (line.length : Int))
    match clampYFuel ((pc2.1.cur_y - pc2.1.height + 1).toNat + 1) pc2.1.buf_y pc2.1.cur_y pc2.1.height with
    | none => none
    | some bc =>
      if pc2.1.height ≤ bc.2 then none  -- `exit(1)`, unreachable after the loop
      else some ({ pc2.1 with buf_y := bc.1, cur_y := bc.2 }, pc2.2)

/-- `ReplEditor.pad_move` on a single pad (lines 499-623 of `py/led.py`).
The `pads` list indirection (`pad_id`) is dropped: the function acts on the
addressed pad.  Returns the updated pad and the `changed` flag, or `none`
if CPython would raise / not return. -/
def pad_move (p : Pad) (dx dy x y : Option Int) : Option (Pad × Bool) :=
  match moveX p dx x with
  | none => none
  | some (p1, c1) =>
    let pc := moveY p1 dy y c1
    clampPass pc.1 pc.2

/-- `ReplEditor.editor_event` (lines 638-736 of `py/led.py`) on a single
pad, with `debug=False`.  `cmd`/`msg` are the normalized input event.  The
`exit` command only sets the `editor_esc` flag, and `pad_display` only
rewrites display state, so both are the identity here; `none` models a
raised `IndexError` or `exit(1)`. -/
def editor_event (p : Pad) (cmd : String) (msg : List Char) : Option Pad :=
  if cmd = "bsp" then
    if 0 < p.cur_x + p.buf_x then
      match pad_move p (some (-1)) none none none with
      | none => none
      | some (p1, _) =>
        match pyGet p1.buffer (p1.buf_y + p1.cur_y) with
        | none => none
        | some line =>
          match pySet p1.buffer (p1.buf_y + p1.cur_y)
              (pyTake line (p1.buf_x + p1.cur_x) ++ pyDrop line (p1.buf_x + p1.cur_x + 1)) with
          | none => none
          | some buf1 => some { p1 with buffer := buf1 }
    else
      if 0 < p.cur_y + p.buf_y then
        match pyGet p.buffer (p.cur_y + p.buf_y) with
        | none => none
        | some cur_line =>
          match pad_move p none (some (-1)) none none with
          | none => none
          | some (p1, _) =>
            match pad_move p1 none none (some (-1)) none with
            | none => none
            | some (p2, _) =>
              match pyGet p2.buffer (p2.cur_y + p2.buf_y) with
              | none => none
              | some joined =>
                match pySet p2.buffer (p2.cur_y + p2.buf_y) (joined ++ cur_line) with
                | none => none
                | some buf1 =>
                  match pyDel buf1 (p.cur_y + p.buf_y) with
                  | none => none
                  | some buf2 => some { p2 with buffer := buf2 }
      else some p
  else if cmd = "exit" then some p
  else if cmd = "nl" then
    let cur_ind := p.cur_y + p.buf_y
    let cur_pos := p.cur_x + p.buf_x
    if cur_ind < (p.buffer.length : Int) then
      match pyGet p.buffer cur_ind with
      | none => none
      | some cur_line =>
        let left := pyTake cur_line cur_pos
        let right := pyDrop cur_line cur_pos
        match pySet p.buffer cur_ind left with
        | none => none
        | some buf1 =>
          let buf2 :=
            if cur_ind = (p.buffer.length : Int) - 1 then buf1 ++ [right]
            else pyInsert buf1 (cur_ind + 1) right
          match pad_move { p with buffer := buf2 } none (some 1) (some 0) none with
          | none => none
          | some (p1, _) => some p1
    else none  -- "error cur_line invl"; exit(1)
  else if cmd = "up" then (pad_move p none (some (-1)) none none).map Prod.fst
  else if cmd = "down" then (pad_move p none (some 1) none none).map Prod.fst
  else if cmd = "left" then (pad_move p (some (-1)) none none none).map Prod.fst
  else if cmd = "right" then (pad_move p (some 1) none none none).map Prod.fst
  else if cmd = "home" then (pad_move p none none (some 0) none).map Prod.fst
  else if cmd = "end" then (pad_move p none none (some (-1)) none).map Prod.fst
  else if cmd = "PgUp" then (pad_move p none (some (-p.height)) none none).map Prod.fst
  else if cmd = "PgDown" then (pad_move p none (some p.height) none none).map Prod.fst
  else if cmd = "Start" then (pad_move p none none (some 0) (some 0)).map Prod.fst
  else if cmd = "End" then
    let llen : Int := (p.buffer.length : Int) - 1
    let y0 := llen + p.height
    let y1 := if llen < y0 then llen else y0
    match pad_move p none none none (some y1) with
    | none => none
    | some (p1, _) => (pad_move p1 none none (some (-1)) none).map Prod.fst
  else if cmd = "err" then some p
  else if cmd = "char" then
    match pyGet p.buffer (p.cur_y + p.buf_y) with
    | none => none
    | some cur_line =>
      match msg with
      | [] => none  -- `ord(msg[0])` raises IndexError
      | c :: _ =>
        if 32 ≤ c.toNat then
          let left := pyTake cur_line (p.buf_x + p.cur_x)
          let right := pyDrop cur_line (p.buf_x + p.cur_x)
          match pySet p.buffer (p.cur_y + p.buf_y) (left ++ msg ++ right) with
          | none => none
          | some buf1 => (pad_move { p with buffer := buf1 } (some 1) none none none).map Prod.fst
        else some p
  else some p  -- "Bad state": logged, no mutation

/-! ## The frame layout tree (`Frames` in `py/led.py`) -/

/-- `Direction` enum. -/
inductive Direction where
  | dirNone
  | horizontal
  | vertical
deriving Repr, DecidableEq

/-- `Frame` (class `Frame` in `py/led.py`): child ids (`0` = no child),
split direction and ratio, computed geometry, and an opaque content handle
(`Content` objects are only passed around by reference, so a `Nat` handle
with `none` for Python `None` is a faithful model). -/
structure Frame where
  c_lu : Nat
  c_rd : Nat
  direction : Direction
  ratio : ℚ
  id : Nat
  x : Int
  y : Int
  wx : Int
  hy : Int
  content : Option Nat
deriving Repr, DecidableEq

/-- `Frame.__init__`. -/
def mkFrame (id : Nat) (content : Option Nat) : Frame :=
  ⟨0, 0, Direction.dirNone, 0, id, 0, 0, 0, 0, content⟩

/-- State of a `Frames` instance: the id counter, the insertion-ordered
frame store, the root id and the active id. -/
structure FramesState where
  fr_id : Nat
  frames : List Frame
  root_id : Nat
  active_id : Nat
deriving Repr, DecidableEq

/-- Replace the first frame satisfying `q` by `f` applied to it.  Used to
model CPython's in-place mutation of a frame found by a linear scan
(`Frames.idx` / `Frames.parent_idx` return the first match). -/
def updFirst (q : Frame → Bool) (f : Frame → Frame) : List Frame → List Frame
  | [] => []
  | fr :: rest => if q fr then f fr :: rest else fr :: updFirst q f rest

/-- Remove the frame with the given id (first match).  CPython's
`frames.remove(fr)` removes the object `fr` by identity; since frame ids
are never mutated and are unique in every state this development reasons
about, removing the (unique) frame holding that id is the same operation,
even when other fields of the object were mutated beforehand. -/
def removeById (l : List Frame) (i : Nat) : List Frame :=
  l.eraseP (fun fr => fr.id == i)

/-- `Frames.create`: allocate the next id and append a fresh frame. -/
def framesCreate (s : FramesState) (content : Option Nat) : Nat × FramesState :=
  let id := s.fr_id + 1
  (id, { s with fr_id := id, frames := s.frames ++ [mkFrame id content] })

/-- `Frames.__init__`: create the root frame and make it active. -/
def framesInit : FramesState :=
  let rs := framesCreate ⟨0, [], 0, 0⟩ none
  { rs.2 with root_id := rs.1, active_id := rs.1 }

/-- `Frames.idx` followed by the frame access: first frame with this id. -/
def findFrame (s : FramesState) (id : Nat) : Option Frame :=
  s.frames.find? (fun fr => fr.id == id)

/-- `Frames.parent_idx` followed by the frame access: first frame having
`id` as a child. -/
def findParent (s : FramesState) (id : Nat) : Option Frame :=
  s.frames.find? (fun fr => fr.c_lu == id || fr.c_rd == id)

/-- The loop body of `Frames.win_frames`: collect childless frames in store
order, remembering the position of the active frame. -/
def winAux (active : Nat) : List Frame → List Frame → Int → List Frame × Int
  | [], wfr, a => (wfr, a)
  | fr :: rest, wfr, a =>
    if fr.c_lu == 0 && fr.c_rd == 0 then
      let wfr' := wfr ++ [fr]
      winAux active rest wfr' (if fr.id == active then (wfr'.length : Int) - 1 else a)
    else winAux active rest wfr a

/-- `Frames.win_frames`. -/
def win_frames (s : FramesState) : List Frame × Int :=
  winAux s.active_id s.frames [] (-1)

/-- `Frames.next`: move `active_id` to the next window frame, wrapping.
`none` models the `IndexError` of `wfr[0]` on an empty list. -/
def framesNext (s : FramesState) : Option FramesState :=
  let wa := win_frames s
  if wa.2 < (wa.1.length : Int) - 1 then
    (pyGet wa.1 (wa.2 + 1)).map (fun fr => { s with active_id := fr.id })
  else
    (pyGet wa.1 0).map (fun fr => { s with active_id := fr.id })

/-- How `Frames.split` turns the split leaf into an internal frame:
direction and ratio (`0.5`, exactly the rational 1/2) are recorded, the two
freshly allocated ids become its children, and its content is cleared. -/
def splitFrame (s : FramesState) (fr : Frame) (dir : Direction) : Frame :=
  { fr with direction := dir, ratio := mkRat 1 2, c_lu := s.fr_id + 1,
            c_rd := s.fr_id + 2, content := none }

/-- `Frames.split` (lines 217-233 of `py/led.py`).  Note that *both* child
frames receive the split frame's content reference
(`fr.c_lu = self.create(fr.content)`, `fr.c_rd = self.create(content=fr.content)`)
before the split frame's own content is cleared. -/
def framesSplit (s : FramesState) (id0 : Nat) (dir : Direction) : Bool × FramesState :=
  let id := if id0 = 0 then s.active_id else id0
  match findFrame s id with
  | none => (false, s)
  | some fr =>
    if fr.c_lu ≠ 0 ∨ fr.c_rd ≠ 0 then (false, s)
    else
      let frames' := updFirst (fun g => g.id == id) (fun _ => splitFrame s fr dir) s.frames
                       ++ [mkFrame (s.fr_id + 1) fr.content, mkFrame (s.fr_id + 2) fr.content]
      let s' : FramesState := { s with fr_id := s.fr_id + 2, frames := frames' }
      if fr.id = s.active_id then (true, { s' with active_id := s.fr_id + 1 })
      else (true, s')

/-- `Frames.delete` (lines 150-215 of `py/led.py`).  `none` arises only
from the `IndexError` inside the final `self.next()` call (empty window
list), which cannot happen in invariant-satisfying states. -/
def framesDelete (s : FramesState) (id0 : Nat) : Option (Bool × FramesState) :=
  let id := if id0 = 0 then s.active_id else id0
  let isActive := id = s.active_id
  match findFrame s id with
  | none => some (false, s)
  | some fr =>
    if fr.c_lu ≠ 0 ∨ fr.c_rd ≠ 0 then some (false, s)
    else if fr.id = s.root_id then some (false, s)
    else
      match findParent s id with
      | none => some (false, s)  -- "Illegal state in delete (1)"
      | some p_fr =>
        if p_fr.id = s.root_id then
          if p_fr.c_lu = id ∨ p_fr.c_rd = id then
            let newRoot := if p_fr.c_lu = id then p_fr.c_rd else p_fr.c_lu
            let s1 : FramesState :=
              { s with root_id := newRoot,
                       frames := removeById (removeById s.frames p_fr.id) fr.id }
            if isActive then (framesNext s1).map (fun s2 => (true, s2)) else some (true, s1)
          else some (false, s)  -- "Illegal state in delete (2)"
        else
          match findParent s p_fr.id with
          | none => some (false, s)  -- "Illegal state in delete (3)"
          | some pp_fr =>
            if p_fr.c_lu = id ∨ p_fr.c_rd = id then
              let sib := if p_fr.c_lu = id then p_fr.c_rd else p_fr.c_lu
              if pp_fr.c_lu = p_fr.id ∨ pp_fr.c_rd = p_fr.id then
                let frames1 :=
                  updFirst (fun g => g.c_lu == p_fr.id || g.c_rd == p_fr.id)
                    (fun g => if pp_fr.c_lu = p_fr.id then { g with c_lu := sib }
                              else { g with c_rd := sib }) s.frames
                let s1 : FramesState :=
                  { s with frames := removeById (removeById frames1 p_fr.id) fr.id }
                if isActive then (framesNext s1).map (fun s2 => (true, s2)) else some (true, s1)
              else some (false, s)  -- "Illegal state in delete (4)/(5)"
            else some (false, s)  -- "Illegal state in delete (6)"

/-- Python `int()` truncation (toward zero) of an exact rational. -/
def pyInt (q : ℚ) : Int :=
  Int.tdiv q.num (q.den : Int)

/-- The child rectangles computed by `Frames.geometry` for a `HORIZONTAL`
internal frame (lines 274-275): left child `(x, y, int(wx*ratio), hy)`,
right child `(x+int(wx*ratio), y, int(wx*(1-ratio)), hy)`.  Rectangles are
`(x, y, width, height)`. -/
def hChildRects (x y wx hy : Int) (ratio : ℚ) :
    (Int × Int × Int × Int) × (Int × Int × Int × Int) :=
  ((x, y, pyInt ((wx : ℚ) * ratio), hy),
   (x + pyInt ((wx : ℚ) * ratio), y, pyInt ((wx : ℚ) * (1 - ratio)), hy))

/-- The child rectangles for a `VERTICAL` internal frame (lines 277-278). -/
def vChildRects (x y wx hy : Int) (ratio : ℚ) :
    (Int × Int × Int × Int) × (Int × Int × Int × Int) :=
  ((x, y, wx, pyInt ((hy : ℚ) * ratio)),
   (x, y + pyInt ((hy : ℚ) * ratio), wx, pyInt ((hy : ℚ) * (1 - ratio))))

/-- The recursive worker `_geometry` of `Frames.geometry` (lines 262-282),
with fuel for the recursion (the Python recursion is bounded by the tree
depth; fuel exhaustion cannot happen on tree-shaped states). -/
def geometryAux : Nat → FramesState → Nat → Int → Int → Int → Int → Option FramesState
  | 0, _, _, _, _, _, _ => none
  | fuel + 1, s, id, x, y, wx, hy =>
    match findFrame s id with
    | none => some s  -- "Internal error (1) in geometry"
    | some fr =>
      let fr' : Frame := { fr with x := x, y := y, wx := wx, hy := hy }
      let s1 : FramesState := { s with frames := updFirst (fun g => g.id == id) (fun _ => fr') s.frames }
      if fr.c_lu ≠ 0 ∧ fr.c_rd ≠ 0 then
        if fr.direction = Direction.horizontal then
          let r := hChildRects x y wx hy fr.ratio
          match geometryAux fuel s1 fr.c_lu r.1.1 r.1.2.1 r.1.2.2.1 r.1.2.2.2 with
          | none => none
          | some s2 => geometryAux fuel s2 fr.c_rd r.2.1 r.2.2.1 r.2.2.2.1 r.2.2.2.2
        else if fr.direction = Direction.vertical then
          let r := vChildRects x y wx hy fr.ratio
          match geometryAux fuel s1 fr.c_lu r.1.1 r.1.2.1 r.1.2.2.1 r.1.2.2.2 with
          | none => none
          | some s2 => geometryAux fuel s2 fr.c_rd r.2.1 r.2.2.1 r.2.2.2.1 r.2.2.2.2
        else some s1
      else some s1  -- leaf, or logged "Illegal state" for half-linked nodes

/-- `Frames.geometry`. -/
def framesGeometry (s : FramesState) (x y wx hy : Int) : Option FramesState :=
  geometryAux (s.frames.length + 1) s s.root_id x y wx hy

/-! ## Invariants and derived notions -/

/-- A frame is a window (leaf) frame iff it has no children. -/
def leafF (fr : Frame) : Bool :=
  fr.c_lu == 0 && fr.c_rd == 0

/-- Number of leaf frames in the store. -/
def leafCount (s : FramesState) : Nat :=
  s.frames.countP (fun fr => leafF fr)

/-- Number of internal frames in the store. -/
def internalCount (s : FramesState) : Nat :=
  s.frames.countP (fun fr => !leafF fr)

/-- Structural store invariant maintained by `split`/`delete`: unique
positive bounded ids, no single-child frames, one more leaf than internal
frames, and an active id naming an existing leaf. -/
def FramesInv (s : FramesState) : Prop :=
  (s.frames.map Frame.id).Nodup ∧
  (∀ fr ∈ s.frames, 1 ≤ fr.id ∧ fr.id ≤ s.fr_id) ∧
  (∀ fr ∈ s.frames, fr.c_lu = 0 ↔ fr.c_rd = 0) ∧
  leafCount s = internalCount s + 1 ∧
  ∃ fr ∈ s.frames, fr.id = s.active_id ∧ fr.c_lu = 0 ∧ fr.c_rd = 0

instance (s : FramesState) : Decidable (FramesInv s) := by
  unfold FramesInv; infer_instance

/-- Pre-order depth-first traversal of all frame ids reachable from `id`
through child links (fuel-bounded; any fuel above the tree depth gives the
full traversal). -/
def preorderIds (s : FramesState) : Nat → Nat → List Nat
  | 0, _ => []
  | fuel + 1, id =>
    match findFrame s id with
    | none => []
    | some fr =>
      if fr.c_lu ≠ 0 ∧ fr.c_rd ≠ 0 then
        id :: (preorderIds s fuel fr.c_lu ++ preorderIds s fuel fr.c_rd)
      else [id]

/-- Modelled from the spec: `leaves() -> ordered list`, the "pre-order
depth-first traversal of leaf frames" from the root that §4.1 of the spec
uses to define iteration and `next` order.  (The source has no such
traversal; `win_frames` is its store-order counterpart.) -/
def preorderLeavesSpec (s : FramesState) : Nat → Nat → List Nat
  | 0, _ => []
  | fuel + 1, id =>
    match findFrame s id with
    | none => []
    | some fr =>
      if fr.c_lu ≠ 0 ∧ fr.c_rd ≠ 0 then
        preorderLeavesSpec s fuel fr.c_lu ++ preorderLeavesSpec s fuel fr.c_rd
      else [id]

/-- The spec's §3 tree invariant: the store invariant plus "every frame is
reachable from the root via child links, exactly once". -/
def TreeInv (s : FramesState) : Prop :=
  FramesInv s ∧
  List.Perm (preorderIds s (s.frames.length + 1) s.root_id) (s.frames.map Frame.id)

instance (s : FramesState) : Decidable (TreeInv s) := by
  unfold TreeInv; infer_instance

/-- Ids of the window (leaf) frames in `win_frames` order. -/
def winIds (s : FramesState) : List Nat :=
  (win_frames s).1.map Frame.id

/-- The entry after `a` in `l`, wrapping from the last entry to the first. -/
def nextInList (l : List Nat) (a : Nat) : Option Nat :=
  match l.findIdx? (fun i => i == a) with
  | none => none
  | some k => l[(k + 1) % l.length]?

/-- States reachable from a fresh `Frames()` instance by arbitrary
`split`/`delete` calls. -/
inductive Reached : FramesState → Prop where
  | init : Reached framesInit
  | split (s : FramesState) (id0 : Nat) (dir : Direction) (b : Bool) (s' : FramesState) :
      Reached s → framesSplit s id0 dir = (b, s') → Reached s'
  | delete (s : FramesState) (id0 : Nat) (b : Bool) (s' : FramesState) :
      Reached s → framesDelete s id0 = some (b, s') → Reached s'

/-- Absolute cursor column of a pad. -/
def absX (p : Pad) : Int := p.buf_x + p.cur_x

/-- Absolute cursor row of a pad. -/
def absY (p : Pad) : Int := p.buf_y + p.cur_y

/-- The buffer line under the cursor (for in-range cursors). -/
def curL (p : Pad) : List Char :=
  (pyGet p.buffer (p.buf_y + p.cur_y)).getD []

/-- A valid pad: cursor within the viewport, viewport origin non-negative,
absolute cursor within the buffer and within the current line. -/
def PadInv (p : Pad) : Prop :=
  0 ≤ p.buf_x ∧ 0 ≤ p.cur_x ∧ 0 ≤ p.buf_y ∧ 0 ≤ p.cur_y ∧
  p.cur_x < p.width ∧ p.cur_y < p.height ∧
  p.buf_y + p.cur_y < (p.buffer.length : Int) ∧
  p.buf_x + p.cur_x ≤ ((curL p).length : Int)

instance (p : Pad) : Decidable (PadInv p) := by
  unfold PadInv; infer_instance

/-- Splice `cs` into `L` at position `n`. -/
def insertManyAt (L : List Char) (n : Nat) (cs : List Char) : List Char :=
  L.take n ++ cs ++ L.drop n

/-- Remove the character of `L` at position `n`. -/
def removeAt (L : List Char) (n : Nat) : List Char :=
  L.take n ++ L.drop (n + 1)

/-- Issue one `char` command per character of `cs`, in order. -/
def insSeq : List Char → Pad → Option Pad
  | [], p => some p
  | c :: cs, p => (editor_event p "char" [c]).bind (insSeq cs)

/-- Issue `n` `bsp` commands. -/
def bspN : Nat → Pad → Option Pad
  | 0, p => some p
  | n + 1, p => (editor_event p "bsp" []).bind (bspN n)

/-! ### Concrete states used as witnesses and counterexamples -/

/-- The pad of the spec's viewport example: buffer `["abc"]`, width 2. -/
def padAbc : Pad := ⟨2, 1, 0, 0, 0, 0, [['a', 'b', 'c']]⟩

/-- A pad used to refute the general cursor bound for large `dx`. -/
def padWide : Pad := ⟨3, 2, 0, 0, 0, 0, [['a', 'b', 'c', 'd', 'e', 'f']]⟩

/-- A pad whose cursor sits one short of the viewport's right edge. -/
def padAB : Pad := ⟨2, 1, 1, 0, 0, 0, [['a', 'b']]⟩

/-- A small pad used to exercise single theorems at concrete inputs. -/
def padA : Pad := ⟨2, 2, 0, 0, 0, 0, [['a']]⟩

/-- A single-leaf state whose root holds a content reference. -/
def sContent : FramesState :=
  ⟨1, [⟨0, 0, Direction.dirNone, 0, 1, 0, 0, 0, 0, some 7⟩], 1, 1⟩

/-- A fresh instance split once horizontally. -/
def sSplitH : FramesState := (framesSplit framesInit 0 Direction.horizontal).2

/-- An internal frame with a 0.5 horizontal split, for literal states. -/
def fInternal (id lu rd : Nat) : Frame :=
  ⟨lu, rd, Direction.horizontal, mkRat 1 2, id, 0, 0, 0, 0, none⟩

/-- The state obtained from a fresh instance by `split(1)`, `split(2)`,
`split(4)` (each on the then-active leaf), with the active leaf then moved
to 5: store order of leaves is `[3,5,6,7]`, pre-order is `[6,7,5,3]`. -/
def sInsOrder : FramesState :=
  ⟨7, [fInternal 1 2 3, fInternal 2 4 5, mkFrame 3 none, fInternal 4 6 7,
       mkFrame 5 none, mkFrame 6 none, mkFrame 7 none], 1, 5⟩

/-! ## Helper lemmas about the frame store -/

theorem updFirst_map_id (q : Frame → Bool) (f : Frame → Frame) (l : List Frame)
    (h : ∀ g, q g = true → (f g).id = g.id) :
    (updFirst q f l).map Frame.id = l.map Frame.id := by
  induction l with
  | nil => rfl
  | cons a t ih =>
    by_cases hq : q a = true
    · simp [updFirst, hq, h a hq]
    · simp [updFirst, hq, ih]

theorem find?_id_of_nodup (l : List Frame) (fr : Frame)
    (hn : (l.map Frame.id).Nodup) (hm : fr ∈ l) :
    l.find? (fun g => g.id == fr.id) = some fr := by
  induction l with
  | nil => cases hm
  | cons a t ih =>
    rcases List.mem_cons.mp hm with rfl | hmem
    · simp [List.find?_cons]
    · have hne : ¬(a.id == fr.id) = true := by
        simp only [beq_iff_eq]
        intro he
        have : fr.id ∈ t.map Frame.id := List.mem_map_of_mem Frame.id hmem
        rw [← he] at this
        exact (List.nodup_cons.mp (by simpa using hn)).1 this
      have hn' : (t.map Frame.id).Nodup := (List.nodup_cons.mp (by simpa using hn)).2
      simp [List.find?_cons, hne]
      exact ih hn' hmem

theorem find?_updFirst_self (q : Frame → Bool) (f : Frame → Frame) (l : List Frame)
    (hf : ∀ g, q g = true → q (f g) = true) :
    (updFirst q f l).find? q = (l.find? q).map f := by
  induction l with
  | nil => rfl
  | cons a t ih =>
    by_cases hq : q a = true
    · simp [updFirst, hq, List.find?_cons, hf a hq]
    · simp [updFirst, hq, List.find?_cons, ih]

theorem mem_updFirst_of_mem (q : Frame → Bool) (f : Frame → Frame) (l : List Frame)
    (g : Frame) (hm : g ∈ updFirst q f l) :
    g ∈ l ∨ ∃ a ∈ l, q a = true ∧ g = f a := by
  induction l with
  | nil => cases hm
  | cons a t ih =>
    by_cases hq : q a = true
    · simp only [updFirst, hq, if_true] at hm
      rcases List.mem_cons.mp hm with rfl | hmem
      · exact Or.inr ⟨a, List.mem_cons_self a t, hq, rfl⟩
      · exact Or.inl (List.mem_cons_of_mem a hmem)
    · simp only [updFirst, hq, if_false] at hm
      rcases List.mem_cons.mp hm with rfl | hmem
      · exact Or.inl (List.mem_cons_self g t)
      · rcases ih hmem with h | ⟨b, hb, hqb, hgb⟩
        · exact Or.inl (List.mem_cons_of_mem a h)
        · exact Or.inr ⟨b, List.mem_cons_of_mem a hb, hqb, hgb⟩

/-- `pyInt` is the floor on non-negative rationals (truncation toward zero
agrees with flooring there). -/
theorem pyInt_eq_floor (q : ℚ) (h : 0 ≤ q) : pyInt q = ⌊q⌋ := by
  unfold pyInt
  rw [Rat.floor_def]
  exact Int.tdiv_eq_ediv (Rat.num_nonneg.mpr h) (by positivity)

/-! ## C3: the spec's `move(x=-1)` viewport example -/

/-- C3 counterexample: on the pad with buffer `["abc"]`, width 2 and
origin/cursor zero, `pad_move(x=-1)` yields `buf_x = 2`, `cur_x = 1` — not
the claimed `buf_x = 1`, `cur_x = 2` (the final `cur_x == width` clamp of
`pad_move` fires on the claimed values). -/
theorem pad_move_end_abc_counterexample :
    (pad_move padAbc none none (some (-1)) none).map
        (fun r => (r.1.buf_x, r.1.cur_x)) = some (2, 1) ∧
    (some ((2 : Int), (1 : Int)) ≠ some ((1 : Int), (2 : Int))) := by
  constructor
  · decide
  · decide

/-- C3 (amended): for the pad with buffer `["abc"]`, viewport width 2 and
origin/cursor at zero, `pad_move` with absolute `x = -1` results in
`buf_x = 2` and `cur_x = 1` (the final clamp advances the origin once more
so that the cursor stays strictly inside the viewport), and a subsequent
`pad_move` with absolute `x = 0` results in `buf_x = 0` and `cur_x = 0`. -/
theorem pad_move_end_abc_amended :
    (pad_move padAbc none none (some (-1)) none).map
        (fun r => (r.1.buf_x, r.1.cur_x)) = some (2, 1) ∧
    ((pad_move padAbc none none (some (-1)) none).bind
        (fun r => pad_move r.1 none none (some 0) none)).map
        (fun r => (r.1.buf_x, r.1.cur_x)) = some (0, 0) := by
  constructor
  · decide
  · decide

/-- Unfolding lemma for a successful `split` on a childless frame. -/
theorem framesSplit_eq_of_leaf (s : FramesState) (fr : Frame)
    (hne0 : fr.id ≠ 0) (hfind : findFrame s fr.id = some fr)
    (hlu : fr.c_lu = 0) (hrd : fr.c_rd = 0) (dir : Direction) :
    framesSplit s fr.id dir =
      (true, { s with
                 fr_id := s.fr_id + 2,
                 frames := updFirst (fun g => g.id == fr.id) (fun _ => splitFrame s fr dir) s.frames
                   ++ [mkFrame (s.fr_id + 1) fr.content, mkFrame (s.fr_id + 2) fr.content],
                 active_id := if fr.id = s.active_id then s.fr_id + 1 else s.active_id }) := by
  have hid : (if fr.id = 0 then s.active_id else fr.id) = fr.id := if_neg hne0
  simp only [framesSplit, hid, hfind]
  simp only [hlu, hrd, ne_eq, not_true_eq_false, or_self, if_false]
  by_cases hact : fr.id = s.active_id <;> simp [hact]

/-! ## C1: content placement on `split` -/

/-- C1 counterexample: in a single-leaf state whose root holds content
handle `7`, `split` succeeds but the *right* child (id 3) also holds the
content — it does not start empty as claimed. -/
theorem split_right_content_counterexample :
    TreeInv sContent ∧
    (framesSplit sContent 1 Direction.horizontal).1 = true ∧
    ((findFrame (framesSplit sContent 1 Direction.horizontal).2 3).map Frame.content)
      = some (some 7) ∧
    some (some 7) ≠ some (none : Option Nat) := by
  refine ⟨by decide, by decide, by decide, by decide⟩

/-- C1 (amended): in every state satisfying the tree invariant, splitting a
leaf frame that holds content succeeds, and afterwards *both* newly created
children hold the frame's former content reference (the code passes
`fr.content` to both `create` calls), while the split frame itself holds no
content. -/
theorem split_content_both_children (s : FramesState) (fr : Frame) (dir : Direction) (c : Nat)
    (hinv : TreeInv s) (hmem : fr ∈ s.frames) (hlu : fr.c_lu = 0) (hrd : fr.c_rd = 0)
    (hc : fr.content = some c) :
    ∃ s', framesSplit s fr.id dir = (true, s') ∧
      findFrame s' (s.fr_id + 1) = some (mkFrame (s.fr_id + 1) (some c)) ∧
      findFrame s' (s.fr_id + 2) = some (mkFrame (s.fr_id + 2) (some c)) ∧
      (findFrame s' fr.id).map Frame.content = some none := by
  obtain ⟨⟨hnodup, hbound, _, _, _⟩, _⟩ := hinv
  have hne0 : fr.id ≠ 0 := by
    have := (hbound fr hmem).1; omega
  have hfind : findFrame s fr.id = some fr := find?_id_of_nodup s.frames fr hnodup hmem
  refine ⟨_, framesSplit_eq_of_leaf s fr hne0 hfind hlu hrd dir, ?_, ?_, ?_⟩
  · show List.find? (fun g => g.id == s.fr_id + 1)
        (updFirst (fun g => g.id == fr.id) (fun _ => splitFrame s fr dir) s.frames
          ++ [mkFrame (s.fr_id + 1) fr.content, mkFrame (s.fr_id + 2) fr.content]) = _
    rw [List.find?_append]
    have hleft : List.find? (fun g => g.id == s.fr_id + 1)
        (updFirst (fun g => g.id == fr.id) (fun _ => splitFrame s fr dir) s.frames) = none := by
      rw [List.find?_eq_none]
      intro g hg
      rcases mem_updFirst_of_mem _ _ _ g hg with hgl | ⟨a, hal, _, hga⟩
      · have := (hbound g hgl).2
        simp only [beq_iff_eq]; omega
      · have : g.id = fr.id := by rw [hga]; rfl
        have := (hbound fr hmem).2
        simp only [beq_iff_eq]; omega
    rw [hleft]
    simp [mkFrame, hc]
  · show List.find? (fun g => g.id == s.fr_id + 2)
        (updFirst (fun g => g.id == fr.id) (fun _ => splitFrame s fr dir) s.frames
          ++ [mkFrame (s.fr_id + 1) fr.content, mkFrame (s.fr_id + 2) fr.content]) = _
    rw [List.find?_append]
    have hleft : List.find? (fun g => g.id == s.fr_id + 2)
        (updFirst (fun g => g.id == fr.id) (fun _ => splitFrame s fr dir) s.frames) = none := by
      rw [List.find?_eq_none]
      intro g hg
      rcases mem_updFirst_of_mem _ _ _ g hg with hgl | ⟨a, hal, _, hga⟩
      · have := (hbound g hgl).2
        simp only [beq_iff_eq]; omega
      · have : g.id = fr.id := by rw [hga]; rfl
        have := (hbound fr hmem).2
        simp only [beq_iff_eq]; omega
    rw [hleft]
    have hm1 : ¬((mkFrame (s.fr_id + 1) fr.content).id == s.fr_id + 2) = true := by
      simp [mkFrame]
    simp [List.find?_cons, hm1, mkFrame, hc]
  · show (List.find? (fun g => g.id == fr.id)
        (updFirst (fun g => g.id == fr.id) (fun _ => splitFrame s fr dir) s.frames
          ++ [mkFrame (s.fr_id + 1) fr.content, mkFrame (s.fr_id + 2) fr.content])).map
        Frame.content = _
    rw [List.find?_append]
    have hself : List.find? (fun g => g.id == fr.id)
        (updFirst (fun g => g.id == fr.id) (fun _ => splitFrame s fr dir) s.frames)
        = some (splitFrame s fr dir) := by
      rw [find?_updFirst_self _ _ _ (by intro g _; simp [splitFrame])]
      rw [show List.find? (fun g => g.id == fr.id) s.frames = some fr from hfind]
      rfl
    rw [hself]
    rfl

/-- C1 witness: the amended theorem applied to the concrete single-leaf
state `sContent` (root id 1, content handle 7). -/
theorem split_content_both_children_witness :
    TreeInv sContent ∧
    (∃ s', framesSplit sContent 1 Direction.horizontal = (true, s') ∧
      findFrame s' 2 = some (mkFrame 2 (some 7)) ∧
      findFrame s' 3 = some (mkFrame 3 (some 7)) ∧
      (findFrame s' 1).map Frame.content = some none) :=
  ⟨by decide,
    split_content_both_children sContent ⟨0, 0, Direction.dirNone, 0, 1, 0, 0, 0, 0, some 7⟩
      Direction.horizontal 7 (by decide) (by decide) rfl rfl rfl⟩

/-! ## C2: geometry subdivision -/

unseal Rat.mul Rat.sub in
/-- C2 counterexample: after one horizontal 0.5 split, `geometry(0,0,5,600)`
gives the parent width 5 but children of width 2 each (`int(5*0.5)` and
`int(5*0.5)`), so the children do not sum to the parent's extent: the right
child does not receive the remaining 3 columns. -/
theorem geometry_cover_counterexample :
    TreeInv sSplitH ∧
    (framesGeometry sSplitH 0 0 5 600).bind
        (fun s' => (findFrame s' 1).map (fun fr => (fr.x, fr.wx))) = some (0, 5) ∧
    (framesGeometry sSplitH 0 0 5 600).bind
        (fun s' => (findFrame s' 2).map (fun fr => (fr.x, fr.wx))) = some (0, 2) ∧
    (framesGeometry sSplitH 0 0 5 600).bind
        (fun s' => (findFrame s' 3).map (fun fr => (fr.x, fr.wx))) = some (2, 2) ∧
    (2 : Int) + 2 ≠ 5 := by
  refine ⟨by decide, by decide, by decide, by decide, by decide⟩

/-- C2 (amended): the child rectangles computed by `geometry` for an
internal frame: under a horizontal split the left child's width is
`⌊w·ratio⌋` and the right child starts right after it, so the children are
disjoint; but the right child's width is `⌊w·(1-ratio)⌋` — not the full
remainder — so the children together cover at most (not exactly) the
parent's extent.  Vertical splits behave analogously on heights. -/
theorem geometry_child_rects_spec (x y wx hy : Int) (r : ℚ)
    (hr0 : 0 ≤ r) (hr1 : r ≤ 1) (hw : 0 ≤ wx) (hh : 0 ≤ hy) :
    (hChildRects x y wx hy r).1.2.2.1 = pyInt ((wx : ℚ) * r) ∧
    (hChildRects x y wx hy r).2.1 = x + pyInt ((wx : ℚ) * r) ∧
    0 ≤ pyInt ((wx : ℚ) * r) ∧ 0 ≤ pyInt ((wx : ℚ) * (1 - r)) ∧
    pyInt ((wx : ℚ) * r) + pyInt ((wx : ℚ) * (1 - r)) ≤ wx ∧
    (vChildRects x y wx hy r).1.2.2.2 = pyInt ((hy : ℚ) * r) ∧
    (vChildRects x y wx hy r).2.2.1 = y + pyInt ((hy : ℚ) * r) ∧
    0 ≤ pyInt ((hy : ℚ) * r) ∧ 0 ≤ pyInt ((hy : ℚ) * (1 - r)) ∧
    pyInt ((hy : ℚ) * r) + pyInt ((hy : ℚ) * (1 - r)) ≤ hy := by
  have hr1' : 0 ≤ 1 - r := by linarith
  have hsum : ∀ w : Int, 0 ≤ w →
      0 ≤ pyInt ((w : ℚ) * r) ∧ 0 ≤ pyInt ((w : ℚ) * (1 - r)) ∧
      pyInt ((w : ℚ) * r) + pyInt ((w : ℚ) * (1 - r)) ≤ w := by
    intro w hw'
    have hw'' : (0 : ℚ) ≤ (w : ℚ) := by exact_mod_cast hw'
    have h1 : 0 ≤ (w : ℚ) * r := mul_nonneg hw'' hr0
    have h2 : 0 ≤ (w : ℚ) * (1 - r) := mul_nonneg hw'' hr1'
    rw [pyInt_eq_floor _ h1, pyInt_eq_floor _ h2]
    refine ⟨Int.floor_nonneg.mpr h1, Int.floor_nonneg.mpr h2, ?_⟩
    have hA : (⌊(w : ℚ) * r⌋ : ℚ) ≤ (w : ℚ) * r := Int.floor_le _
    have hB : (⌊(w : ℚ) * (1 - r)⌋ : ℚ) ≤ (w : ℚ) * (1 - r) := Int.floor_le _
    have : (⌊(w : ℚ) * r⌋ : ℚ) + (⌊(w : ℚ) * (1 - r)⌋ : ℚ) ≤ (w : ℚ) := by
      have : (w : ℚ) * r + (w : ℚ) * (1 - r) = (w : ℚ) := by ring
      linarith
    exact_mod_cast this
  obtain ⟨hw1, hw2, hw3⟩ := hsum wx hw
  obtain ⟨hh1, hh2, hh3⟩ := hsum hy hh
  exact ⟨rfl, rfl, hw1, hw2, hw3, rfl, rfl, hh1, hh2, hh3⟩

/-! ## Viewport lemmas: `pad_move` -/

theorem clampYFuel_some_lt (fuel : Nat) (b c h : Int) (b' c' : Int)
    (hs : clampYFuel fuel b c h = some (b', c')) : c' < h := by
  induction fuel generalizing b c with
  | zero => exact Option.noConfusion hs
  | succ n ih =>
    unfold clampYFuel at hs
    split at hs
    · exact ih _ _ hs
    · simp only [Option.some.injEq, Prod.mk.injEq] at hs
      obtain ⟨_, rfl⟩ := hs
      omega

theorem clampYFuel_of_lt (fuel : Nat) (b c h : Int) (hc : c < h) :
    clampYFuel (fuel + 1) b c h = some (b, c) := by
  unfold clampYFuel
  rw [if_neg (by omega)]

/-- `moveX` only changes `buf_x`/`cur_x`. -/
theorem moveX_fields (p : Pad) (dx x : Option Int) (p1 : Pad) (c1 : Bool)
    (h : moveX p dx x = some (p1, c1)) :
    p1.cur_y = p.cur_y ∧ p1.buf_y = p.buf_y ∧ p1.width = p.width ∧
    p1.height = p.height ∧ p1.buffer = p.buffer := by
  simp only [moveX] at h
  repeat' split at h
  all_goals first
    | exact Option.noConfusion h
    | (simp only [Option.some.injEq, Prod.mk.injEq] at h
       obtain ⟨rfl, rfl⟩ := h
       exact ⟨rfl, rfl, rfl, rfl, rfl⟩)

/-- `moveY` only changes `buf_y`/`cur_y`. -/
theorem moveY_fields (p : Pad) (dy y : Option Int) (ch : Bool) :
    (moveY p dy y ch).1.cur_x = p.cur_x ∧ (moveY p dy y ch).1.buf_x = p.buf_x ∧
    (moveY p dy y ch).1.width = p.width ∧ (moveY p dy y ch).1.height = p.height ∧
    (moveY p dy y ch).1.buffer = p.buffer := by
  simp only [moveY]
  repeat' split
  all_goals exact ⟨rfl, rfl, rfl, rfl, rfl⟩

/-- After the x-phase with a relative step of at most one column, the
cursor column is at most `width`. -/
theorem moveX_cur_le (p : Pad) (dx x : Option Int) (p1 : Pad) (c1 : Bool)
    (h : moveX p dx x = some (p1, c1))
    (hdx : ∀ d, dx = some d → d ≤ 1)
    (hw : 0 ≤ p.width) (hcw : p.cur_x < p.width) :
    p1.cur_x ≤ p1.width := by
  cases x with
  | some xv =>
    simp only [moveX] at h
    repeat' split at h
    all_goals first
      | exact Option.noConfusion h
      | (simp only [Option.some.injEq, Prod.mk.injEq] at h
         obtain ⟨rfl, rfl⟩ := h
         try dsimp only
         omega)
  | none =>
    cases dx with
    | none =>
      simp only [moveX, Option.some.injEq, Prod.mk.injEq] at h
      obtain ⟨rfl, rfl⟩ := h
      omega
    | some d =>
      have hd := hdx d rfl
      simp only [moveX] at h
      repeat' split at h
      all_goals first
        | exact Option.noConfusion h
        | (simp only [Option.some.injEq, Prod.mk.injEq] at h
           obtain ⟨rfl, rfl⟩ := h
           try dsimp only
           omega)

/-- The delta clamp stage does not increase `cur_x` beyond `width` and only
changes the column fields. -/
theorem clampDeltaX_fields (p : Pad) (ch : Bool) (len : Int) :
    (clampDeltaX p ch len).1.cur_y = p.cur_y ∧ (clampDeltaX p ch len).1.buf_y = p.buf_y ∧
    (clampDeltaX p ch len).1.width = p.width ∧ (clampDeltaX p ch len).1.height = p.height ∧
    (clampDeltaX p ch len).1.buffer = p.buffer := by
  simp only [clampDeltaX]
  repeat' split
  all_goals exact ⟨rfl, rfl, rfl, rfl, rfl⟩

theorem clampDeltaX_cur_le (p : Pad) (ch : Bool) (len : Int)
    (hle : p.cur_x ≤ p.width) (hw : 0 ≤ p.width) :
    (clampDeltaX p ch len).1.cur_x ≤ (clampDeltaX p ch len).1.width := by
  simp only [clampDeltaX]
  repeat' split
  all_goals try dsimp only
  all_goals omega

/-- The width-wraparound stage leaves the cursor strictly left of `width`
and only changes the column fields. -/
theorem clampWidthX_fields (pc : Pad × Bool) :
    (clampWidthX pc).1.cur_y = pc.1.cur_y ∧ (clampWidthX pc).1.buf_y = pc.1.buf_y ∧
    (clampWidthX pc).1.width = pc.1.width ∧ (clampWidthX pc).1.height = pc.1.height ∧
    (clampWidthX pc).1.buffer = pc.1.buffer := by
  simp only [clampWidthX]
  split
  all_goals exact ⟨rfl, rfl, rfl, rfl, rfl⟩

theorem clampWidthX_cur_lt (pc : Pad × Bool) (hle : pc.1.cur_x ≤ pc.1.width) :
    (clampWidthX pc).1.cur_x < (clampWidthX pc).1.width := by
  simp only [clampWidthX]
  split
  · dsimp only
    omega
  · omega

/-- The final clamp pass keeps the cursor strictly inside the viewport
(given that the x-phase left `cur_x ≤ width`), and does not change the
buffer or the viewport extent. -/
theorem clampPass_bound (p : Pad) (ch : Bool) (p' : Pad) (c' : Bool)
    (h : clampPass p ch = some (p', c'))
    (hle : p.cur_x ≤ p.width) (hw : 0 ≤ p.width) :
    p'.cur_x < p'.width ∧ p'.cur_y < p'.height ∧ p'.width = p.width ∧
    p'.height = p.height ∧ p'.buffer = p.buffer := by
  obtain ⟨hd1, hd2, hd3, hd4, hd5⟩ := clampDeltaX_fields p ch (0 : Int)
  simp only [clampPass] at h
  split at h
  · exact Option.noConfusion h
  case h_2 line heq =>
    obtain ⟨he1, he2, he3, he4, he5⟩ := clampDeltaX_fields p ch (line.length : Int)
    obtain ⟨hf1, hf2, hf3, hf4, hf5⟩ :=
      clampWidthX_fields (clampDeltaX p ch (line.length : Int))
    have hlt := clampWidthX_cur_lt (clampDeltaX p ch (line.length : Int))
      (clampDeltaX_cur_le p ch (line.length : Int) hle hw)
    split at h
    · exact Option.noConfusion h
    case h_2 bc heq2 =>
      split at h
      · exact Option.noConfusion h
      case isFalse hcy =>
        simp only [Option.some.injEq, Prod.mk.injEq] at h
        obtain ⟨rfl, rfl⟩ := h
        refine ⟨by simpa using hlt, by simpa using hcy, ?_, ?_, ?_⟩
        · show (clampWidthX _).1.width = _
          rw [hf3, he3]
        · show (clampWidthX _).1.height = _
          rw [hf4, he4]
        · show (clampWidthX _).1.buffer = _
          rw [hf5, he5]

/-- The clamp pass does not change the buffer or the viewport extent. -/
theorem clampPass_fields (p : Pad) (ch : Bool) (p' : Pad) (c' : Bool)
    (h : clampPass p ch = some (p', c')) :
    p'.width = p.width ∧ p'.height = p.height ∧ p'.buffer = p.buffer := by
  simp only [clampPass] at h
  split at h
  · exact Option.noConfusion h
  case h_2 line heq =>
    obtain ⟨_, _, he3, he4, he5⟩ := clampDeltaX_fields p ch (line.length : Int)
    obtain ⟨_, _, hf3, hf4, hf5⟩ :=
      clampWidthX_fields (clampDeltaX p ch (line.length : Int))
    split at h
    · exact Option.noConfusion h
    case h_2 bc heq2 =>
      split at h
      · exact Option.noConfusion h
      case isFalse hcy =>
        simp only [Option.some.injEq, Prod.mk.injEq] at h
        obtain ⟨rfl, rfl⟩ := h
        refine ⟨?_, ?_, ?_⟩
        · show (clampWidthX _).1.width = _
          rw [hf3, he3]
        · show (clampWidthX _).1.height = _
          rw [hf4, he4]
        · show (clampWidthX _).1.buffer = _
          rw [hf5, he5]

/-- `pad_move` never changes the buffer or the viewport extent. -/
theorem pad_move_fields (p : Pad) (dx dy x y : Option Int) (p' : Pad) (c : Bool)
    (h : pad_move p dx dy x y = some (p', c)) :
    p'.width = p.width ∧ p'.height = p.height ∧ p'.buffer = p.buffer := by
  unfold pad_move at h
  split at h
  · exact Option.noConfusion h
  case h_2 p1 c1 heq =>
    obtain ⟨_, _, hw1, hh1, hb1⟩ := moveX_fields p dx x p1 c1 heq
    obtain ⟨_, _, hw2, hh2, hb2⟩ := moveY_fields p1 dy y c1
    obtain ⟨hw3, hh3, hb3⟩ := clampPass_fields _ _ _ _ h
    refine ⟨by rw [hw3, hw2, hw1], by rw [hh3, hh2, hh1], by rw [hb3, hb2, hb1]⟩

/-! ### Reduction lemmas for the Python-semantics helpers -/

theorem pyIdxN_of_nonneg (n : Nat) (i : Int) (h0 : 0 ≤ i) (hl : i < (n : Int)) :
    pyIdxN n i = some i.toNat := by
  unfold pyIdxN
  rw [if_pos h0, if_pos hl]

theorem pyGet_eq_some (l : List α) (i : Int) (h0 : 0 ≤ i) (hl : i < (l.length : Int)) :
    pyGet l i = some (l.get ⟨i.toNat, by omega⟩) := by
  unfold pyGet
  rw [pyIdxN_of_nonneg _ _ h0 hl]
  exact List.getElem?_eq_getElem (by omega)

theorem pySet_eq_some (l : List α) (i : Int) (v : α) (h0 : 0 ≤ i) (hl : i < (l.length : Int)) :
    pySet l i v = some (l.set i.toNat v) := by
  unfold pySet
  rw [pyIdxN_of_nonneg _ _ h0 hl]

theorem pyDel_eq_some (l : List α) (i : Int) (h0 : 0 ≤ i) (hl : i < (l.length : Int)) :
    pyDel l i = some (l.eraseIdx i.toNat) := by
  unfold pyDel
  rw [pyIdxN_of_nonneg _ _ h0 hl]

theorem pySliceIdx_of_nonneg (n : Nat) (i : Int) (h0 : 0 ≤ i) (hle : i ≤ (n : Int)) :
    pySliceIdx n i = i.toNat := by
  unfold pySliceIdx
  rw [if_pos h0]
  omega

theorem pyTake_of_nonneg (l : List α) (i : Int) (h0 : 0 ≤ i) (hle : i ≤ (l.length : Int)) :
    pyTake l i = l.take i.toNat := by
  unfold pyTake
  rw [pySliceIdx_of_nonneg _ _ h0 hle]

theorem pyDrop_of_nonneg (l : List α) (i : Int) (h0 : 0 ≤ i) (hle : i ≤ (l.length : Int)) :
    pyDrop l i = l.drop i.toNat := by
  unfold pyDrop
  rw [pySliceIdx_of_nonneg _ _ h0 hle]

/-! ### Step characterizations of `pad_move` for the editor's calls -/

/-- When the cursor is within the current line and the viewport row bound
holds, the final clamp pass only applies the `cur_x == width` wraparound. -/
theorem clampDeltaX_of_le (p : Pad) (ch : Bool) (len : Int)
    (h : p.buf_x + p.cur_x ≤ len) : clampDeltaX p ch len = (p, ch) := by
  unfold clampDeltaX
  rw [if_neg (by omega)]

theorem clampPass_spec (p : Pad) (ch : Bool) (L : List Char)
    (hL : pyGet p.buffer (p.buf_y + p.cur_y) = some L)
    (hd : p.buf_x + p.cur_x ≤ (L.length : Int))
    (hcy : p.cur_y < p.height) :
    clampPass p ch =
      if p.cur_x = p.width then
        some ({ p with buf_x := p.buf_x + 1, cur_x := p.cur_x - 1 }, true)
      else some (p, ch) := by
  unfold clampPass
  rw [hL]
  simp only [clampDeltaX_of_le p ch (L.length : Int) hd]
  unfold clampWidthX
  by_cases hxw : p.cur_x = p.width
  · rw [if_pos (by simpa using hxw), if_pos (by simpa using hxw)]
    simp only
    rw [clampYFuel_of_lt _ _ _ _ (by simpa using hcy)]
    simp only
    rw [if_neg (by simpa using not_le.mpr hcy)]
  · rw [if_neg (by simpa using hxw), if_neg (by simpa using hxw)]
    simp only
    rw [clampYFuel_of_lt _ _ _ _ hcy]
    simp only
    rw [if_neg (not_le.mpr hcy)]

/-- `pad_move(dx=1)` when the absolute cursor is strictly inside the
current line: the absolute column advances by exactly one and the cursor
stays strictly inside the viewport. -/
theorem pad_move_dx1 (p : Pad) (L : List Char)
    (hL : pyGet p.buffer (p.buf_y + p.cur_y) = some L)
    (hx0 : 0 ≤ p.buf_x) (hcx0 : 0 ≤ p.cur_x)
    (habs : p.buf_x + p.cur_x < (L.length : Int))
    (hcw : p.cur_x < p.width)
    (hcy : p.cur_y < p.height) :
    ∃ p', pad_move p (some 1) none none none = some (p', true) ∧
      p'.buf_x + p'.cur_x = p.buf_x + p.cur_x + 1 ∧
      0 ≤ p'.buf_x ∧ 0 ≤ p'.cur_x ∧ p'.cur_x < p'.width ∧
      p'.cur_y = p.cur_y ∧ p'.buf_y = p.buf_y ∧
      p'.width = p.width ∧ p'.height = p.height ∧ p'.buffer = p.buffer := by
  have hmx : moveX p (some 1) none = some ({ p with cur_x := p.cur_x + 1 }, true) := by
    simp only [moveX, hL]
    rw [if_neg (by norm_num), if_pos (by norm_num), if_pos habs, if_pos hcw]
  have hpm : pad_move p (some 1) none none none =
      clampPass { p with cur_x := p.cur_x + 1 } true := by
    unfold pad_move
    rw [hmx]
    rfl
  rw [hpm, clampPass_spec _ _ L (by simpa using hL) (by try simp; omega) (by simpa using hcy)]
  by_cases hxw : p.cur_x + 1 = p.width
  · rw [if_pos (by simpa using hxw)]
    exact ⟨_, rfl, by try simp; omega, by try simp; omega, by try simp; omega, by try simp; omega,
      rfl, rfl, rfl, rfl, rfl⟩
  · rw [if_neg (by simpa using hxw)]
    exact ⟨_, rfl, by try simp; omega, by try simp; omega, by try simp; omega, by try simp; omega,
      rfl, rfl, rfl, rfl, rfl⟩

/-- `pad_move(dx=-1)` when the absolute cursor is at column ≥ 1 of the
current line: the absolute column retreats by exactly one. -/
theorem pad_move_dxm1 (p : Pad) (L : List Char)
    (hL : pyGet p.buffer (p.buf_y + p.cur_y) = some L)
    (hx0 : 0 ≤ p.buf_x) (hcx0 : 0 ≤ p.cur_x)
    (habs : 1 ≤ p.buf_x + p.cur_x)
    (habsle : p.buf_x + p.cur_x ≤ (L.length : Int))
    (hcw : p.cur_x < p.width)
    (hcy : p.cur_y < p.height) :
    ∃ p', pad_move p (some (-1)) none none none = some (p', true) ∧
      p'.buf_x + p'.cur_x = p.buf_x + p.cur_x - 1 ∧
      0 ≤ p'.buf_x ∧ 0 ≤ p'.cur_x ∧ p'.cur_x < p'.width ∧
      p'.cur_y = p.cur_y ∧ p'.buf_y = p.buf_y ∧
      p'.width = p.width ∧ p'.height = p.height ∧ p'.buffer = p.buffer := by
  have hw0 : 0 < p.width := by omega
  by_cases hc1 : 0 ≤ p.cur_x + (-1)
  · have hmx : moveX p (some (-1)) none = some ({ p with cur_x := p.cur_x + (-1) }, true) := by
      simp only [moveX]
      rw [if_pos (by norm_num), if_pos hc1]
    have hpm : pad_move p (some (-1)) none none none =
        clampPass { p with cur_x := p.cur_x + (-1) } true := by
      unfold pad_move
      rw [hmx]
      rfl
    rw [hpm, clampPass_spec _ _ L (by simpa using hL) (by try simp; omega) (by simpa using hcy)]
    rw [if_neg (by try simp; omega)]
    exact ⟨_, rfl, by try simp; omega, by try simp; omega, by try simp; omega, by try simp; omega,
      rfl, rfl, rfl, rfl, rfl⟩
  · have hbx : ¬(p.buf_x + (-1) < 0) := by omega
    have hmx : moveX p (some (-1)) none = some ({ p with buf_x := p.buf_x + (-1) }, true) := by
      simp only [moveX]
      rw [if_pos (by norm_num), if_neg hc1, if_pos (by omega)]
      try dsimp only
      rw [if_neg hbx]
    have hpm : pad_move p (some (-1)) none none none =
        clampPass { p with buf_x := p.buf_x + (-1) } true := by
      unfold pad_move
      rw [hmx]
      rfl
    rw [hpm, clampPass_spec _ _ L (by simpa using hL) (by try simp; omega) (by simpa using hcy)]
    rw [if_neg (by try simp; omega)]
    exact ⟨_, rfl, by try simp; omega, by try simp; omega, by try simp; omega, by try simp; omega,
      rfl, rfl, rfl, rfl, rfl⟩

/-- Unfolding of `editor_event` for the `char` command. -/
theorem editor_event_char (p : Pad) (msg : List Char) :
    editor_event p "char" msg =
      (match pyGet p.buffer (p.cur_y + p.buf_y) with
      | none => none
      | some cur_line =>
        match msg with
        | [] => none
        | c :: _ =>
          if 32 ≤ c.toNat then
            match pySet p.buffer (p.cur_y + p.buf_y)
                (pyTake cur_line (p.buf_x + p.cur_x) ++ msg
                  ++ pyDrop cur_line (p.buf_x + p.cur_x)) with
            | none => none
            | some buf1 =>
              (pad_move { p with buffer := buf1 } (some 1) none none none).map Prod.fst
          else some p) := by
  rfl

/-- Splicing the length of an insertion. -/
theorem insertManyAt_length (L : List Char) (n : Nat) (cs : List Char) (h : n ≤ L.length) :
    (insertManyAt L n cs).length = L.length + cs.length := by
  simp [insertManyAt]
  omega

theorem pyGet_set_self (l : List α) (i : Int) (v : α) (h0 : 0 ≤ i)
    (hl : i < (l.length : Int)) :
    pyGet (l.set i.toNat v) i = some v := by
  rw [pyGet_eq_some _ _ h0 (by simpa using hl)]
  congr 1
  rw [List.get_eq_getElem]
  exact List.getElem_set_self (by rw [List.length_set]; omega)

/-- A `char` event carrying a message whose first character is printable:
the whole message is spliced into the current line at the absolute cursor
column and the absolute column advances by exactly one. -/
theorem char_step (p : Pad) (c : Char) (ms : List Char) (L : List Char)
    (hL : pyGet p.buffer (p.buf_y + p.cur_y) = some L)
    (h32 : 32 ≤ c.toNat)
    (hx0 : 0 ≤ p.buf_x) (hcx0 : 0 ≤ p.cur_x)
    (habsle : p.buf_x + p.cur_x ≤ (L.length : Int))
    (hcw : p.cur_x < p.width) (hcy : p.cur_y < p.height)
    (hy0 : 0 ≤ p.buf_y) (hcy0 : 0 ≤ p.cur_y)
    (hyl : p.buf_y + p.cur_y < (p.buffer.length : Int)) :
    ∃ p', editor_event p "char" (c :: ms) = some p' ∧
      p'.buffer = p.buffer.set (p.buf_y + p.cur_y).toNat
        (insertManyAt L (p.buf_x + p.cur_x).toNat (c :: ms)) ∧
      p'.buf_x + p'.cur_x = p.buf_x + p.cur_x + 1 ∧
      0 ≤ p'.buf_x ∧ 0 ≤ p'.cur_x ∧ p'.cur_x < p'.width ∧
      p'.cur_y = p.cur_y ∧ p'.buf_y = p.buf_y ∧
      p'.width = p.width ∧ p'.height = p.height := by
  have hcomm : p.cur_y + p.buf_y = p.buf_y + p.cur_y := by omega
  have habs0 : 0 ≤ p.buf_x + p.cur_x := by omega
  have hLlen : (p.buf_x + p.cur_x).toNat ≤ L.length := by omega
  set n : Nat := (p.buf_x + p.cur_x).toNat with hn
  set Lnew : List Char := insertManyAt L n (c :: ms) with hLnew
  set bufNew : List (List Char) := p.buffer.set (p.buf_y + p.cur_y).toNat Lnew with hbufNew
  have hset : pySet p.buffer (p.cur_y + p.buf_y)
      (pyTake L (p.buf_x + p.cur_x) ++ (c :: ms) ++ pyDrop L (p.buf_x + p.cur_x))
      = some bufNew := by
    rw [pyTake_of_nonneg _ _ habs0 habsle, pyDrop_of_nonneg _ _ habs0 habsle]
    rw [hcomm, pySet_eq_some _ _ _ (by omega) hyl]
    rfl
  have hev : editor_event p "char" (c :: ms) =
      (pad_move { p with buffer := bufNew } (some 1) none none none).map Prod.fst := by
    rw [editor_event_char, hcomm, hL]
    simp only [if_pos h32]
    rw [← hcomm, hset]
  have hLget : pyGet bufNew (p.buf_y + p.cur_y) = some Lnew := by
    rw [hbufNew, pyGet_set_self _ _ _ (by omega) hyl]
  have hlen : (Lnew.length : Int) = (L.length : Int) + (ms.length + 1) := by
    rw [hLnew, insertManyAt_length L n (c :: ms) hLlen, List.length_cons]
    push_cast
    omega
  obtain ⟨p', hp', habs', hb0, hc0, hcw', hcyE, hbyE, hwE, hhE, hbufE⟩ :=
    pad_move_dx1 { p with buffer := bufNew } Lnew hLget hx0 hcx0 (by dsimp only; omega)
      hcw hcy
  refine ⟨p', ?_, ?_, by simpa using habs', hb0, hc0, hcw', by simpa using hcyE,
    by simpa using hbyE, hwE, hhE⟩
  · rw [hev, hp']
    rfl
  · rw [hbufE]

/-- Unfolding of the character-deletion branch of the `bsp` command. -/
theorem editor_event_bsp_pos (p : Pad) (msg : List Char) (h : 0 < p.cur_x + p.buf_x) :
    editor_event p "bsp" msg =
      (match pad_move p (some (-1)) none none none with
      | none => none
      | some (p1, _) =>
        match pyGet p1.buffer (p1.buf_y + p1.cur_y) with
        | none => none
        | some line =>
          match pySet p1.buffer (p1.buf_y + p1.cur_y)
              (pyTake line (p1.buf_x + p1.cur_x) ++ pyDrop line (p1.buf_x + p1.cur_x + 1)) with
          | none => none
          | some buf1 => some { p1 with buffer := buf1 }) := by
  unfold editor_event
  rw [if_pos rfl, if_pos h]

/-- Writing back the element stored at an index is the identity. -/
theorem set_get_self (l : List α) (k : Nat) (h : k < l.length) :
    l.set k (l.get ⟨k, h⟩) = l := by
  apply List.ext_getElem
  · simp
  · intro i h1 h2
    by_cases hik : i = k
    · subst hik
      rw [List.getElem_set_self (by simpa using h2), List.get_eq_getElem]
    · rw [List.getElem_set_ne (by omega)]

/-- Inserting `c :: cs` at `n` is inserting `[c]` at `n`, then `cs` at `n+1`. -/
theorem insertManyAt_cons (L : List Char) (n : Nat) (h : n ≤ L.length) (c : Char)
    (cs : List Char) :
    insertManyAt (insertManyAt L n [c]) (n + 1) cs = insertManyAt L n (c :: cs) := by
  have hlen : (L.take n).length = n := by
    rw [List.length_take]
    omega
  unfold insertManyAt
  have h1 : (L.take n ++ [c] ++ L.drop n).take (n + 1) = L.take n ++ [c] := by
    rw [show L.take n ++ [c] ++ L.drop n = (L.take n ++ [c]) ++ L.drop n by simp]
    exact List.take_left' (by simp [hlen])
  have h2 : (L.take n ++ [c] ++ L.drop n).drop (n + 1) = L.drop n := by
    rw [show L.take n ++ [c] ++ L.drop n = (L.take n ++ [c]) ++ L.drop n by simp]
    exact List.drop_left' (by simp [hlen])
  rw [h1, h2]
  simp

/-- Deleting the character right after the first `n + cs.length` ones of a
spliced line removes the last inserted character. -/
theorem removeAt_insertManyAt_last (L : List Char) (n : Nat) (h : n ≤ L.length)
    (cs : List Char) (c : Char) :
    removeAt (insertManyAt L n (cs ++ [c])) (n + cs.length) = insertManyAt L n cs := by
  have hlen : (L.take n ++ cs).length = n + cs.length := by
    rw [List.length_append, List.length_take]
    omega
  unfold removeAt insertManyAt
  have h1 : (L.take n ++ (cs ++ [c]) ++ L.drop n).take (n + cs.length) = L.take n ++ cs := by
    rw [show L.take n ++ (cs ++ [c]) ++ L.drop n = (L.take n ++ cs) ++ ([c] ++ L.drop n) by simp]
    exact List.take_left' hlen
  have h2 : (L.take n ++ (cs ++ [c]) ++ L.drop n).drop (n + cs.length + 1) = L.drop n := by
    rw [show L.take n ++ (cs ++ [c]) ++ L.drop n = (L.take n ++ cs ++ [c]) ++ L.drop n by simp]
    exact List.drop_left' (by simp [List.length_append, List.length_take]; omega)
  rw [h1, h2]

/-- A `bsp` event with the absolute cursor at column ≥ 1: the character to
the cursor's left is removed and the absolute column retreats by one. -/
theorem bsp_step (p : Pad) (L : List Char)
    (hL : pyGet p.buffer (p.buf_y + p.cur_y) = some L)
    (habs1 : 1 ≤ p.buf_x + p.cur_x)
    (habsle : p.buf_x + p.cur_x ≤ (L.length : Int))
    (hx0 : 0 ≤ p.buf_x) (hcx0 : 0 ≤ p.cur_x)
    (hcw : p.cur_x < p.width) (hcy : p.cur_y < p.height)
    (hy0 : 0 ≤ p.buf_y) (hcy0 : 0 ≤ p.cur_y)
    (hyl : p.buf_y + p.cur_y < (p.buffer.length : Int)) :
    ∃ p', editor_event p "bsp" [] = some p' ∧
      p'.buffer = p.buffer.set (p.buf_y + p.cur_y).toNat
        (removeAt L ((p.buf_x + p.cur_x).toNat - 1)) ∧
      p'.buf_x + p'.cur_x = p.buf_x + p.cur_x - 1 ∧
      0 ≤ p'.buf_x ∧ 0 ≤ p'.cur_x ∧ p'.cur_x < p'.width ∧
      p'.cur_y = p.cur_y ∧ p'.buf_y = p.buf_y ∧
      p'.width = p.width ∧ p'.height = p.height := by
  obtain ⟨p1, hp1, habs', hb0, hc0, hcw', hcyE, hbyE, hwE, hhE, hbufE⟩ :=
    pad_move_dxm1 p L hL hx0 hcx0 habs1 habsle hcw hcy
  have hLget : pyGet p1.buffer (p1.buf_y + p1.cur_y) = some L := by
    rw [hbufE, hcyE, hbyE]
    exact hL
  have hset : pySet p1.buffer (p1.buf_y + p1.cur_y)
      (pyTake L (p1.buf_x + p1.cur_x) ++ pyDrop L (p1.buf_x + p1.cur_x + 1))
      = some (p.buffer.set (p.buf_y + p.cur_y).toNat
          (removeAt L ((p.buf_x + p.cur_x).toNat - 1))) := by
    rw [pyTake_of_nonneg _ _ (by omega) (by omega),
        pyDrop_of_nonneg _ _ (by omega) (by omega)]
    rw [hbufE, hcyE, hbyE, pySet_eq_some _ _ _ (by omega) hyl]
    unfold removeAt
    rw [show (p1.buf_x + p1.cur_x).toNat = (p.buf_x + p.cur_x).toNat - 1 by omega]
    rw [show (p1.buf_x + p1.cur_x + 1).toNat = (p.buf_x + p.cur_x).toNat - 1 + 1 by omega]
  set bufR : List (List Char) := p.buffer.set (p.buf_y + p.cur_y).toNat (removeAt L ((p.buf_x + p.cur_x).toNat - 1)) with hbufRdef
  refine ⟨{ p1 with buffer := bufR }, ?_, rfl, ?_, ?_, ?_, ?_, ?_, ?_, ?_, ?_⟩
  · rw [editor_event_bsp_pos p [] (by omega), hp1]
    simp only [hLget, hset]
  · show p1.buf_x + p1.cur_x = _
    omega
  · show 0 ≤ p1.buf_x
    exact hb0
  · show 0 ≤ p1.cur_x
    exact hc0
  · show p1.cur_x < p1.width
    exact hcw'
  · show p1.cur_y = _
    omega
  · show p1.buf_y = _
    omega
  · show p1.width = _
    omega
  · show p1.height = _
    omega

/-- Inserting the characters of `cs` one `char` event at a time splices
`cs` into the current line and advances the absolute column by its
length. -/
theorem insSeq_spec (cs : List Char) (p : Pad) (L : List Char)
    (hprint : ∀ c ∈ cs, 32 ≤ c.toNat)
    (hL : pyGet p.buffer (p.buf_y + p.cur_y) = some L)
    (hx0 : 0 ≤ p.buf_x) (hcx0 : 0 ≤ p.cur_x)
    (habsle : p.buf_x + p.cur_x ≤ (L.length : Int))
    (hcw : p.cur_x < p.width) (hcy : p.cur_y < p.height)
    (hy0 : 0 ≤ p.buf_y) (hcy0 : 0 ≤ p.cur_y)
    (hyl : p.buf_y + p.cur_y < (p.buffer.length : Int)) :
    ∃ p', insSeq cs p = some p' ∧
      p'.buffer = p.buffer.set (p.buf_y + p.cur_y).toNat
        (insertManyAt L (p.buf_x + p.cur_x).toNat cs) ∧
      p'.buf_x + p'.cur_x = p.buf_x + p.cur_x + cs.length ∧
      0 ≤ p'.buf_x ∧ 0 ≤ p'.cur_x ∧ p'.cur_x < p'.width ∧
      p'.cur_y = p.cur_y ∧ p'.buf_y = p.buf_y ∧
      p'.width = p.width ∧ p'.height = p.height := by
  induction cs generalizing p L with
  | nil =>
    refine ⟨p, rfl, ?_, by simp, hx0, hcx0, hcw, rfl, rfl, rfl, rfl⟩
    have hk : (p.buf_y + p.cur_y).toNat < p.buffer.length := by omega
    have : insertManyAt L (p.buf_x + p.cur_x).toNat [] = L := by
      unfold insertManyAt
      simp [List.take_append_drop]
    rw [this]
    have hLval : L = p.buffer.get ⟨(p.buf_y + p.cur_y).toNat, hk⟩ := by
      rw [pyGet_eq_some _ _ (by omega) hyl] at hL
      exact (Option.some.injEq _ _ ▸ hL.symm :)
    rw [hLval, set_get_self]
  | cons c cs ih =>
    obtain ⟨p1, hp1, hbuf1, habs1, hb1, hc1, hcw1, hcy1, hby1, hw1, hh1⟩ :=
      char_step p c [] L hL (hprint c (by simp)) hx0 hcx0 habsle hcw hcy hy0 hcy0 hyl
    have hk : (p.buf_y + p.cur_y).toNat < p.buffer.length := by omega
    have hL1 : pyGet p1.buffer (p1.buf_y + p1.cur_y)
        = some (insertManyAt L (p.buf_x + p.cur_x).toNat [c]) := by
      rw [hbuf1, hcy1, hby1]
      exact pyGet_set_self _ _ _ (by omega) hyl
    obtain ⟨p2, hp2, hbuf2, habs2, hb2, hc2, hcw2, hcy2, hby2, hw2, hh2⟩ :=
      ih p1 (insertManyAt L (p.buf_x + p.cur_x).toNat [c])
        (fun d hd => hprint d (by simp [hd]))
        hL1 hb1 hc1
        (by rw [insertManyAt_length L _ [c] (by omega), List.length_singleton]
            push_cast
            omega)
        hcw1 (by rw [hcy1]; rw [hh1]; exact hcy)
        (by omega) (by omega)
        (by rw [hbuf1, hcy1, hby1]; simpa using hyl)
    refine ⟨p2, ?_, ?_,
      by rw [habs2, habs1]; simp only [List.length_cons]; push_cast; omega, hb2, hc2, hcw2,
      by rw [hcy2, hcy1], by rw [hby2, hby1], by rw [hw2, hw1], by rw [hh2, hh1]⟩
    · show (editor_event p "char" [c]).bind (insSeq cs) = some p2
      rw [hp1]
      simpa using hp2
    · rw [hbuf2, hbuf1, hcy1, hby1, habs1]
      rw [List.set_set]
      congr 1
      have : (p.buf_x + p.cur_x + 1).toNat = (p.buf_x + p.cur_x).toNat + 1 := by omega
      rw [this, insertManyAt_cons L _ (by omega) c cs]

/-- Issuing one `bsp` per inserted character removes the splice again. -/
theorem bspN_spec (cs : List Char) (q : Pad) (B : List (List Char)) (L : List Char) (n : Nat)
    (hn : n ≤ L.length)
    (hbuf : q.buffer = B.set (q.buf_y + q.cur_y).toNat (insertManyAt L n cs))
    (hB : (q.buf_y + q.cur_y).toNat < B.length)
    (habs : q.buf_x + q.cur_x = (n : Int) + cs.length)
    (hx0 : 0 ≤ q.buf_x) (hcx0 : 0 ≤ q.cur_x)
    (hcw : q.cur_x < q.width) (hcy : q.cur_y < q.height)
    (hy0 : 0 ≤ q.buf_y) (hcy0 : 0 ≤ q.cur_y) :
    ∃ p', bspN cs.length q = some p' ∧
      p'.buffer = B.set (q.buf_y + q.cur_y).toNat L ∧
      p'.buf_x + p'.cur_x = (n : Int) ∧
      p'.cur_y = q.cur_y ∧ p'.buf_y = q.buf_y ∧
      p'.width = q.width ∧ p'.height = q.height := by
  induction cs using List.reverseRecOn generalizing q with
  | nil =>
    refine ⟨q, rfl, ?_, by simpa using habs, rfl, rfl, rfl, rfl⟩
    rw [hbuf]
    congr 1
    unfold insertManyAt
    simp [List.take_append_drop]
  | append_singleton cs c ih =>
    have hyabs : 0 ≤ q.buf_y + q.cur_y := by omega
    have hqlen : q.buffer.length = B.length := by
      rw [hbuf, List.length_set]
    have hyl : q.buf_y + q.cur_y < (q.buffer.length : Int) := by
      rw [hqlen]
      omega
    have hLq : pyGet q.buffer (q.buf_y + q.cur_y)
        = some (insertManyAt L n (cs ++ [c])) := by
      rw [hbuf]
      exact pyGet_set_self _ _ _ hyabs (by omega)
    have hilen : (insertManyAt L n (cs ++ [c])).length = L.length + (cs.length + 1) := by
      rw [insertManyAt_length L n (cs ++ [c]) hn]
      simp
    obtain ⟨q1, hq1, hbufq1, habsq1, hb1, hc1, hcw1, hcy1, hby1, hw1, hh1⟩ :=
      bsp_step q (insertManyAt L n (cs ++ [c])) hLq
        (by rw [habs]; simp only [List.length_append, List.length_singleton]; push_cast; omega)
        (by rw [habs, hilen]
            simp only [List.length_append, List.length_singleton]
            push_cast
            omega)
        hx0 hcx0 hcw hcy hy0 hcy0 hyl
    have habsN : (q.buf_x + q.cur_x).toNat - 1 = n + cs.length := by
      have : q.buf_x + q.cur_x = (n : Int) + (cs.length + 1) := by
        rw [habs]
        simp only [List.length_append, List.length_singleton]
        push_cast
        omega
      omega
    have hbufq1' : q1.buffer = B.set (q.buf_y + q.cur_y).toNat (insertManyAt L n cs) := by
      rw [hbufq1, hbuf, List.set_set, habsN,
          removeAt_insertManyAt_last L n hn cs c]
    obtain ⟨p', hp', hbufp, habsp, hcyp, hbyp, hwp, hhp⟩ :=
      ih q1 (by rw [hcy1, hby1]; exact hbufq1') (by rw [hcy1, hby1]; exact hB)
        (by rw [habsq1, habs]
            simp only [List.length_append, List.length_singleton]
            push_cast
            omega)
        hb1 hc1 hcw1 (by rw [hcy1, hh1]; exact hcy)
        (by omega) (by omega)
    refine ⟨p', ?_, by rw [hbufp, hcy1, hby1], habsp,
      by rw [hcyp, hcy1], by rw [hbyp, hby1], by rw [hwp, hw1], by rw [hhp, hh1]⟩
    show bspN (cs ++ [c]).length q = some p'
    rw [List.length_append]
    show bspN (cs.length + 1) q = some p'
    show (editor_event q "bsp" []).bind (bspN cs.length) = some p'
    rw [hq1]
    simpa using hp'

/-! ## C8: insert/backspace round trip -/

/-- C8 counterexample: on the pad with buffer `["ab"]`, width 2 and cursor
at column 1, inserting one character and backspacing once restores the
buffer, but leaves `buf_x = 1, cur_x = 0` instead of the original
`buf_x = 0, cur_x = 1`: the inserted character pushed the cursor to the
viewport edge, and the `cur_x == width` clamp scrolled the origin. -/
theorem ins_bsp_cursor_counterexample :
    PadInv padAB ∧
    (insSeq ['x'] padAB).bind (bspN 1) = some (⟨2, 1, 0, 0, 1, 0, [['a', 'b']]⟩ : Pad) ∧
    (⟨2, 1, 0, 0, 1, 0, [['a', 'b']]⟩ : Pad).buffer = padAB.buffer ∧
    ¬((⟨2, 1, 0, 0, 1, 0, [['a', 'b']]⟩ : Pad).buf_x = padAB.buf_x ∧
      (⟨2, 1, 0, 0, 1, 0, [['a', 'b']]⟩ : Pad).cur_x = padAB.cur_x) := by
  refine ⟨by decide, by decide, by decide, by decide⟩

/-- C8 (amended): for every valid pad and string of printable characters,
inserting the characters one `char` command at a time and then issuing as
many `bsp` commands restores the buffer content, the absolute cursor
column `buf_x + cur_x`, and the row origin and cursor exactly; the column
origin/cursor decomposition may differ (the origin may have scrolled). -/
theorem ins_bsp_roundtrip (p : Pad) (cs : List Char)
    (hinv : PadInv p) (hprint : ∀ c ∈ cs, 32 ≤ c.toNat) :
    ∃ p', (insSeq cs p).bind (bspN cs.length) = some p' ∧
      p'.buffer = p.buffer ∧
      p'.buf_x + p'.cur_x = p.buf_x + p.cur_x ∧
      p'.cur_y = p.cur_y ∧ p'.buf_y = p.buf_y := by
  obtain ⟨hx0, hcx0, hy0, hcy0, hcw, hcy, hyl, habsle⟩ := hinv
  have hk : (p.buf_y + p.cur_y).toNat < p.buffer.length := by omega
  set L : List Char := p.buffer.get ⟨(p.buf_y + p.cur_y).toNat, hk⟩ with hLdef
  have hL : pyGet p.buffer (p.buf_y + p.cur_y) = some L := pyGet_eq_some _ _ (by omega) hyl
  have habsle' : p.buf_x + p.cur_x ≤ (L.length : Int) := by
    have hc : curL p = L := by
      unfold curL
      rw [hL]
      rfl
    rwa [hc] at habsle
  obtain ⟨p1, hp1, hbuf1, habs1, hb1, hc1, hcw1, hcy1, hby1, hw1, hh1⟩ :=
    insSeq_spec cs p L hprint hL hx0 hcx0 habsle' hcw hcy hy0 hcy0 hyl
  have hnle : (p.buf_x + p.cur_x).toNat ≤ L.length := by omega
  obtain ⟨p2, hp2, hbuf2, habs2, hcy2, hby2, hw2, hh2⟩ :=
    bspN_spec cs p1 p.buffer L (p.buf_x + p.cur_x).toNat hnle
      (by rw [hcy1, hby1]; exact hbuf1)
      (by rw [hcy1, hby1]; exact hk)
      (by rw [habs1]; omega)
      hb1 hc1 hcw1 (by rw [hcy1, hh1]; exact hcy)
      (by omega) (by omega)
  refine ⟨p2, ?_, ?_, by rw [habs2]; omega, by rw [hcy2, hcy1], by rw [hby2, hby1]⟩
  · rw [hp1]
    simpa using hp2
  · rw [hbuf2, hcy1, hby1, hLdef, set_get_self]

/-- C8 witness: the round trip applied to the concrete pad `padAB` with
the one-character string `"x"`. -/
theorem ins_bsp_roundtrip_witness :
    PadInv padAB ∧ (∀ c ∈ (['x'] : List Char), 32 ≤ c.toNat) ∧
    ∃ p', (insSeq ['x'] padAB).bind (bspN (['x'] : List Char).length) = some p' ∧
      p'.buffer = padAB.buffer ∧ p'.buf_x + p'.cur_x = padAB.buf_x + padAB.cur_x ∧
      p'.cur_y = padAB.cur_y ∧ p'.buf_y = padAB.buf_y :=
  ⟨by decide, by decide, ins_bsp_roundtrip padAB ['x'] (by decide) (by decide)⟩

/-! ## C10: whole-message splice on `char` -/

/-- C10: a `char` command carrying a message of length n ≥ 1 whose *first*
character is printable splices the whole message into the current line at
the absolute cursor column (the line grows by n) while the absolute cursor
advances by exactly one column.  The remaining characters are not tested
against the control-character threshold — `ms` is arbitrary, so a control
character in a later position is still inserted. -/
theorem char_inserts_whole_message (p : Pad) (c : Char) (ms L : List Char)
    (hL : pyGet p.buffer (p.buf_y + p.cur_y) = some L)
    (h32 : 32 ≤ c.toNat) (hinv : PadInv p) :
    ∃ p', editor_event p "char" (c :: ms) = some p' ∧
      pyGet p'.buffer (p'.buf_y + p'.cur_y)
        = some (insertManyAt L (p.buf_x + p.cur_x).toNat (c :: ms)) ∧
      (insertManyAt L (p.buf_x + p.cur_x).toNat (c :: ms)).length
        = L.length + (c :: ms).length ∧
      p'.buf_x + p'.cur_x = p.buf_x + p.cur_x + 1 := by
  obtain ⟨hx0, hcx0, hy0, hcy0, hcw, hcy, hyl, habsle⟩ := hinv
  have habsle' : p.buf_x + p.cur_x ≤ (L.length : Int) := by
    have hc : curL p = L := by
      unfold curL
      rw [hL]
      rfl
    rwa [hc] at habsle
  obtain ⟨p', hp', hbuf', habs', hb, hc, hcwE, hcyE, hbyE, hwE, hhE⟩ :=
    char_step p c ms L hL h32 hx0 hcx0 habsle' hcw hcy hy0 hcy0 hyl
  refine ⟨p', hp', ?_, insertManyAt_length L _ _ (by omega), habs'⟩
  rw [hbuf', hcyE, hbyE]
  exact pyGet_set_self _ _ _ (by omega) hyl

/-- C10 witness: the splice theorem at the concrete pad `padAB` with the
message `"x\x01"`, whose second character is a control character. -/
theorem char_inserts_whole_message_witness :
    pyGet padAB.buffer (padAB.buf_y + padAB.cur_y) = some ['a', 'b'] ∧
    32 ≤ 'x'.toNat ∧ PadInv padAB ∧
    ∃ p', editor_event padAB "char" ('x' :: [Char.ofNat 1]) = some p' ∧
      pyGet p'.buffer (p'.buf_y + p'.cur_y)
        = some (insertManyAt ['a', 'b'] (padAB.buf_x + padAB.cur_x).toNat
            ('x' :: [Char.ofNat 1])) ∧
      (insertManyAt ['a', 'b'] (padAB.buf_x + padAB.cur_x).toNat
          ('x' :: [Char.ofNat 1])).length = (['a', 'b'] : List Char).length
            + ('x' :: [Char.ofNat 1]).length ∧
      p'.buf_x + p'.cur_x = padAB.buf_x + padAB.cur_x + 1 :=
  ⟨rfl, by decide, by decide,
    char_inserts_whole_message padAB 'x' [Char.ofNat 1] ['a', 'b'] rfl (by decide) (by decide)⟩

/-! ## C9: the buffer never becomes empty -/

theorem pyIdxN_some_lt (n : Nat) (i : Int) (k : Nat) (h : pyIdxN n i = some k) : k < n := by
  unfold pyIdxN at h
  split_ifs at h <;> simp only [Option.some.injEq] at h <;> omega

theorem pyGet_some_nonneg_lt (l : List α) (i : Int) (a : α)
    (h : pyGet l i = some a) (h0 : 0 ≤ i) : i < (l.length : Int) := by
  unfold pyGet pyIdxN at h
  rw [if_pos h0] at h
  split_ifs at h with h1
  exact h1

theorem pySet_some_length (l : List α) (i : Int) (v : α) (l' : List α)
    (h : pySet l i v = some l') : l'.length = l.length := by
  unfold pySet at h
  split at h
  · exact Option.noConfusion h
  · simp only [Option.some.injEq] at h
    rw [← h, List.length_set]

theorem pyDel_some_length (l : List α) (i : Int) (l' : List α)
    (h : pyDel l i = some l') : l'.length + 1 = l.length := by
  unfold pyDel at h
  split at h
  · exact Option.noConfusion h
  case h_2 k hk =>
    have hlt := pyIdxN_some_lt l.length i k hk
    simp only [Option.some.injEq] at h
    rw [← h, List.length_eraseIdx, if_pos hlt]
    omega

theorem pySliceIdx_le (n : Nat) (i : Int) : pySliceIdx n i ≤ n := by
  unfold pySliceIdx
  split <;> omega

theorem pyInsert_length (l : List α) (i : Int) (v : α) :
    (pyInsert l i v).length = l.length + 1 := by
  unfold pyInsert
  exact List.length_insertIdx _ _ (pySliceIdx_le _ _)

/-- Cursor-move events do not change the buffer. -/
theorem move_like_preserves (p : Pad) (dx dy x y : Option Int) (p' : Pad)
    (h : (pad_move p dx dy x y).map Prod.fst = some p') : p'.buffer = p.buffer := by
  obtain ⟨⟨p1, c1⟩, ha, hab⟩ := Option.map_eq_some'.mp h
  obtain ⟨_, _, hb⟩ := pad_move_fields p dx dy x y p1 c1 ha
  rw [← hab]
  exact hb

/-- Unfolding of the line-join branch of the `bsp` command. -/
theorem editor_event_bsp_join (p : Pad) (msg : List Char)
    (h1 : ¬(0 < p.cur_x + p.buf_x)) (h2 : 0 < p.cur_y + p.buf_y) :
    editor_event p "bsp" msg =
      (match pyGet p.buffer (p.cur_y + p.buf_y) with
      | none => none
      | some cur_line =>
        match pad_move p none (some (-1)) none none with
        | none => none
        | some (p1, _) =>
          match pad_move p1 none none (some (-1)) none with
          | none => none
          | some (p2, _) =>
            match pyGet p2.buffer (p2.cur_y + p2.buf_y) with
            | none => none
            | some joined =>
              match pySet p2.buffer (p2.cur_y + p2.buf_y) (joined ++ cur_line) with
              | none => none
              | some buf1 =>
                match pyDel buf1 (p.cur_y + p.buf_y) with
                | none => none
                | some buf2 => some { p2 with buffer := buf2 }) := by
  unfold editor_event
  rw [if_pos rfl, if_neg h1, if_pos h2]

/-- Unfolding of the no-op branch of the `bsp` command. -/
theorem editor_event_bsp_nonpos (p : Pad) (msg : List Char)
    (h1 : ¬(0 < p.cur_x + p.buf_x)) (h2 : ¬(0 < p.cur_y + p.buf_y)) :
    editor_event p "bsp" msg = some p := by
  unfold editor_event
  rw [if_pos rfl, if_neg h1, if_neg h2]

/-- Unfolding of the `nl` command. -/
theorem editor_event_nl (p : Pad) (msg : List Char) :
    editor_event p "nl" msg =
      (if p.cur_y + p.buf_y < (p.buffer.length : Int) then
        match pyGet p.buffer (p.cur_y + p.buf_y) with
        | none => none
        | some cur_line =>
          match pySet p.buffer (p.cur_y + p.buf_y)
              (pyTake cur_line (p.cur_x + p.buf_x)) with
          | none => none
          | some buf1 =>
            match pad_move { p with buffer :=
                (if p.cur_y + p.buf_y = (p.buffer.length : Int) - 1 then
                  buf1 ++ [pyDrop cur_line (p.cur_x + p.buf_x)]
                else pyInsert buf1 (p.cur_y + p.buf_y + 1)
                  (pyDrop cur_line (p.cur_x + p.buf_x))) }
                none (some 1) (some 0) none with
            | none => none
            | some (p1, _) => some p1
      else none) := by
  rfl

/-- Unfolding of the `End` command. -/
theorem editor_event_End (p : Pad) (msg : List Char) :
    editor_event p "End" msg =
      (match pad_move p none none none
          (some (if (p.buffer.length : Int) - 1 < (p.buffer.length : Int) - 1 + p.height
                 then (p.buffer.length : Int) - 1
                 else (p.buffer.length : Int) - 1 + p.height)) with
      | none => none
      | some (p1, _) => (pad_move p1 none none (some (-1)) none).map Prod.fst) := by
  rfl

/-- C9: every editor command (`char`, `nl`, `bsp` and all cursor moves)
that returns normally leaves the buffer with at least one line; `bsp` with
the absolute cursor at row 0, column 0 changes nothing at all; and `nl`
always grows the buffer by exactly one line, never removing one. -/
theorem editor_event_buffer_nonempty (p : Pad) (cmd : String) (msg : List Char) (p' : Pad)
    (hlen : 1 ≤ p.buffer.length)
    (hcmd : cmd ∈ ["bsp", "nl", "up", "down", "left", "right", "home", "end",
                   "PgUp", "PgDown", "Start", "End", "char"])
    (h : editor_event p cmd msg = some p') :
    1 ≤ p'.buffer.length ∧
    (cmd = "bsp" → p.cur_x + p.buf_x ≤ 0 → p.cur_y + p.buf_y ≤ 0 → p' = p) ∧
    (cmd = "nl" → p'.buffer.length = p.buffer.length + 1) := by
  simp only [List.mem_cons, List.not_mem_nil, or_false] at hcmd
  rcases hcmd with rfl | rfl | rfl | rfl | rfl | rfl | rfl | rfl | rfl | rfl | rfl | rfl | rfl
  case inl =>
    -- "bsp"
    refine ⟨?_, ?_, by intro hc; exact absurd hc (by decide)⟩
    · by_cases h1 : 0 < p.cur_x + p.buf_x
      · rw [editor_event_bsp_pos p msg h1] at h
        split at h
        · exact Option.noConfusion h
        next p1 c1 hpm =>
          split at h
          · exact Option.noConfusion h
          next line hline =>
            split at h
            · exact Option.noConfusion h
            next buf1 hbuf1 =>
              simp only [Option.some.injEq] at h
              obtain ⟨_, _, hb⟩ := pad_move_fields p _ _ _ _ p1 c1 hpm
              have hl1 := pySet_some_length _ _ _ _ hbuf1
              rw [← h]
              show 1 ≤ buf1.length
              rw [hl1, hb]
              exact hlen
      · by_cases h2 : 0 < p.cur_y + p.buf_y
        · rw [editor_event_bsp_join p msg h1 h2] at h
          split at h
          · exact Option.noConfusion h
          next cur_line hcl =>
            split at h
            · exact Option.noConfusion h
            next p1 c1 hpm1 =>
              split at h
              · exact Option.noConfusion h
              next p2 c2 hpm2 =>
                split at h
                · exact Option.noConfusion h
                next joined hj =>
                  split at h
                  · exact Option.noConfusion h
                  next buf1 hbuf1 =>
                    split at h
                    · exact Option.noConfusion h
                    next buf2 hbuf2 =>
                      simp only [Option.some.injEq] at h
                      have hcllt := pyGet_some_nonneg_lt _ _ _ hcl (by omega)
                      obtain ⟨_, _, hb1⟩ := pad_move_fields p _ _ _ _ p1 c1 hpm1
                      obtain ⟨_, _, hb2⟩ := pad_move_fields p1 _ _ _ _ p2 c2 hpm2
                      have hl1 := pySet_some_length _ _ _ _ hbuf1
                      have hl2 := pyDel_some_length _ _ _ hbuf2
                      rw [← h]
                      show 1 ≤ buf2.length
                      rw [hl1, hb2, hb1] at hl2
                      omega
        · rw [editor_event_bsp_nonpos p msg h1 h2] at h
          simp only [Option.some.injEq] at h
          rw [← h]
          exact hlen
    · intro _ hx hy
      rw [editor_event_bsp_nonpos p msg (by omega) (by omega)] at h
      simp only [Option.some.injEq] at h
      exact h.symm
  case inr.inl =>
    -- "nl"
    have hmain : p'.buffer.length = p.buffer.length + 1 := by
      rw [editor_event_nl p msg] at h
      split at h
      · split at h
        · exact Option.noConfusion h
        next cur_line hcl =>
          split at h
          · exact Option.noConfusion h
          next buf1 hbuf1 =>
            split at h
            · exact Option.noConfusion h
            next p1 c1 hpm =>
              simp only [Option.some.injEq] at h
              obtain ⟨_, _, hb⟩ := pad_move_fields _ _ _ _ _ p1 c1 hpm
              have hl1 := pySet_some_length _ _ _ _ hbuf1
              rw [← h, hb]
              split
              · rw [List.length_append, hl1]
                rfl
              · rw [pyInsert_length, hl1]
      · exact Option.noConfusion h
    exact ⟨by omega, by intro hc; exact absurd hc (by decide), fun _ => hmain⟩
  case inr.inr.inl =>
    refine ⟨?_, by intro hc; exact absurd hc (by decide),
      by intro hc; exact absurd hc (by decide)⟩
    rw [move_like_preserves p none (some (-1)) none none p' h]
    exact hlen
  case inr.inr.inr.inl =>
    refine ⟨?_, by intro hc; exact absurd hc (by decide),
      by intro hc; exact absurd hc (by decide)⟩
    rw [move_like_preserves p none (some 1) none none p' h]
    exact hlen
  case inr.inr.inr.inr.inl =>
    refine ⟨?_, by intro hc; exact absurd hc (by decide),
      by intro hc; exact absurd hc (by decide)⟩
    rw [move_like_preserves p (some (-1)) none none none p' h]
    exact hlen
  case inr.inr.inr.inr.inr.inl =>
    refine ⟨?_, by intro hc; exact absurd hc (by decide),
      by intro hc; exact absurd hc (by decide)⟩
    rw [move_like_preserves p (some 1) none none none p' h]
    exact hlen
  case inr.inr.inr.inr.inr.inr.inl =>
    refine ⟨?_, by intro hc; exact absurd hc (by decide),
      by intro hc; exact absurd hc (by decide)⟩
    rw [move_like_preserves p none none (some 0) none p' h]
    exact hlen
  case inr.inr.inr.inr.inr.inr.inr.inl =>
    refine ⟨?_, by intro hc; exact absurd hc (by decide),
      by intro hc; exact absurd hc (by decide)⟩
    rw [move_like_preserves p none none (some (-1)) none p' h]
    exact hlen
  case inr.inr.inr.inr.inr.inr.inr.inr.inl =>
    refine ⟨?_, by intro hc; exact absurd hc (by decide),
      by intro hc; exact absurd hc (by decide)⟩
    rw [move_like_preserves p none (some (-p.height)) none none p' h]
    exact hlen
  case inr.inr.inr.inr.inr.inr.inr.inr.inr.inl =>
    refine ⟨?_, by intro hc; exact absurd hc (by decide),
      by intro hc; exact absurd hc (by decide)⟩
    rw [move_like_preserves p none (some p.height) none none p' h]
    exact hlen
  case inr.inr.inr.inr.inr.inr.inr.inr.inr.inr.inl =>
    refine ⟨?_, by intro hc; exact absurd hc (by decide),
      by intro hc; exact absurd hc (by decide)⟩
    rw [move_like_preserves p none none (some 0) (some 0) p' h]
    exact hlen
  case inr.inr.inr.inr.inr.inr.inr.inr.inr.inr.inr.inl =>
    -- "End"
    refine ⟨?_, by intro hc; exact absurd hc (by decide),
      by intro hc; exact absurd hc (by decide)⟩
    rw [editor_event_End p msg] at h
    split at h
    · exact Option.noConfusion h
    next p1 c1 hpm =>
      obtain ⟨_, _, hb1⟩ := pad_move_fields p _ _ _ _ p1 c1 hpm
      rw [move_like_preserves p1 none none (some (-1)) none p' h, hb1]
      exact hlen
  case inr.inr.inr.inr.inr.inr.inr.inr.inr.inr.inr.inr =>
    -- "char"
    refine ⟨?_, by intro hc; exact absurd hc (by decide),
      by intro hc; exact absurd hc (by decide)⟩
    rw [editor_event_char p msg] at h
    split at h
    · exact Option.noConfusion h
    next cur_line hcl =>
      split at h
      · exact Option.noConfusion h
      next c ms =>
        split_ifs at h with h32
        · split at h
          · exact Option.noConfusion h
          next buf1 hbuf1 =>
            have hl1 := pySet_some_length _ _ _ _ hbuf1
            rw [move_like_preserves _ (some 1) none none none p' h]
            show 1 ≤ buf1.length
            rw [hl1]
            exact hlen
        · simp only [Option.some.injEq] at h
          rw [← h]
          exact hlen

/-- C9 witness: the theorem applied to a one-line pad with a `bsp` at the
absolute origin, which is an exact no-op. -/
theorem editor_event_buffer_nonempty_witness :
    1 ≤ padA.buffer.length ∧
    ("bsp" : String) ∈ ["bsp", "nl", "up", "down", "left", "right", "home", "end",
                        "PgUp", "PgDown", "Start", "End", "char"] ∧
    (1 ≤ padA.buffer.length ∧
     ("bsp" = "bsp" → padA.cur_x + padA.buf_x ≤ 0 → padA.cur_y + padA.buf_y ≤ 0 →
        padA = padA) ∧
     ("bsp" = "nl" → padA.buffer.length = padA.buffer.length + 1)) :=
  ⟨by decide, by decide,
    editor_event_buffer_nonempty padA "bsp" [] padA (by decide) (by decide) rfl⟩

/-! ## C5: cursor bounds after `pad_move` -/

/-- C5 counterexample: from a valid pad of width 3, `pad_move(dx=5)`
returns with `cur_x = 5 ≥ width`; the claimed bound fails for relative
moves larger than one column. -/
theorem pad_move_large_dx_counterexample :
    PadInv padWide ∧
    (pad_move padWide (some 5) none none none).map
        (fun r => (r.1.cur_x, r.1.width)) = some (5, 3) ∧
    ¬((5 : Int) < 3) := by
  refine ⟨by decide, by decide, by decide⟩

/-- C5 (amended): for every valid pad, every `pad_move` call whose relative
column step (if given) is at most one — which covers every call the editor
issues — returns with `cur_x < width` and `cur_y < height`; the boundary
case `cur_x == width` is resolved by advancing the origin by one and
pulling the cursor back by one, and the `cur_y` clamp loop guarantees
`cur_y < height` on every normal return.  (For `dx > 1` the column bound
can fail, as the counterexample shows.) -/
theorem pad_move_cursor_in_viewport (p : Pad) (dx dy x y : Option Int) (p' : Pad) (c : Bool)
    (hinv : PadInv p)
    (hdx : ∀ d, dx = some d → d ≤ 1)
    (h : pad_move p dx dy x y = some (p', c)) :
    p'.cur_x < p'.width ∧ p'.cur_y < p'.height := by
  obtain ⟨_, hcx0, _, _, hcw, _, _, _⟩ := hinv
  have hw : 0 ≤ p.width := by omega
  unfold pad_move at h
  split at h
  · exact Option.noConfusion h
  next p1 c1 heq =>
    obtain ⟨_, _, hw1, _, _⟩ := moveX_fields p dx x p1 c1 heq
    have hx1 : p1.cur_x ≤ p1.width := moveX_cur_le p dx x p1 c1 heq hdx hw hcw
    obtain ⟨hcx2, _, hw2, _, _⟩ := moveY_fields p1 dy y c1
    have := clampPass_bound (moveY p1 dy y c1).1 (moveY p1 dy y c1).2 p' c h
      (by omega) (by omega)
    exact ⟨this.1, this.2.1⟩

/-- C5 witness: the amended bound applied to the concrete pad `padA` with
a one-column move. -/
theorem pad_move_cursor_in_viewport_witness :
    PadInv padA ∧
    ∃ r, pad_move padA (some 1) none none none = some r ∧
      r.1.cur_x < r.1.width ∧ r.1.cur_y < r.1.height := by
  refine ⟨by decide, (⟨2, 2, 1, 0, 0, 0, [['a']]⟩, true), rfl, ?_⟩
  exact pad_move_cursor_in_viewport padA (some 1) none none none _ _ (by decide)
    (fun d hd => by injection hd with hd1; omega) rfl

/-- C2 witness: the amended subdivision facts at the concrete call
`(x,y,w,h) = (0,0,5,600)` with ratio `1/2`; the cover is strict there
(`2 + 2 < 5`). -/
theorem geometry_child_rects_spec_witness :
    (0 : ℚ) ≤ 1/2 ∧ (1/2 : ℚ) ≤ 1 ∧ (0 : Int) ≤ 5 ∧ (0 : Int) ≤ 600 ∧
    ((hChildRects 0 0 5 600 (1/2)).1.2.2.1 = pyInt ((5 : ℚ) * (1/2)) ∧
     (hChildRects 0 0 5 600 (1/2)).2.1 = 0 + pyInt ((5 : ℚ) * (1/2)) ∧
     0 ≤ pyInt ((5 : ℚ) * (1/2)) ∧ 0 ≤ pyInt ((5 : ℚ) * (1 - 1/2)) ∧
     pyInt ((5 : ℚ) * (1/2)) + pyInt ((5 : ℚ) * (1 - 1/2)) ≤ 5 ∧
     (vChildRects 0 0 5 600 (1/2)).1.2.2.2 = pyInt ((600 : ℚ) * (1/2)) ∧
     (vChildRects 0 0 5 600 (1/2)).2.2.1 = 0 + pyInt ((600 : ℚ) * (1/2)) ∧
     0 ≤ pyInt ((600 : ℚ) * (1/2)) ∧ 0 ≤ pyInt ((600 : ℚ) * (1 - 1/2)) ∧
     pyInt ((600 : ℚ) * (1/2)) + pyInt ((600 : ℚ) * (1 - 1/2)) ≤ 600) :=
  ⟨by norm_num, by norm_num, by norm_num, by norm_num,
    geometry_child_rects_spec 0 0 5 600 (1/2) (by norm_num) (by norm_num)
      (by norm_num) (by norm_num)⟩

/-! ## C6/C7/C4: machinery for the frames store -/

theorem find?_decomp (q : Frame → Bool) (l : List Frame) (fr : Frame)
    (h : l.find? q = some fr) :
    ∃ l1 l2, l = l1 ++ fr :: l2 ∧ (∀ x ∈ l1, q x = false) ∧ q fr = true := by
  induction l with
  | nil => exact Option.noConfusion h
  | cons a t ih =>
    by_cases hqa : q a = true
    · rw [List.find?_cons_of_pos _ hqa] at h
      obtain rfl : a = fr := by injection h
      exact ⟨[], t, rfl, fun x hx => absurd hx (List.not_mem_nil x), hqa⟩
    · rw [List.find?_cons_of_neg _ hqa] at h
      obtain ⟨l1, l2, hl, h1, hq⟩ := ih h
      refine ⟨a :: l1, l2, by rw [hl, List.cons_append], ?_, hq⟩
      intro x hx
      rcases List.mem_cons.mp hx with rfl | hx
      · simpa using hqa
      · exact h1 x hx

theorem updFirst_append_middle (q : Frame → Bool) (f : Frame → Frame)
    (l1 l2 : List Frame) (fr : Frame)
    (h1 : ∀ x ∈ l1, q x = false) (hq : q fr = true) :
    updFirst q f (l1 ++ fr :: l2) = l1 ++ f fr :: l2 := by
  induction l1 with
  | nil => simp [updFirst, hq]
  | cons a t ih =>
    have ha : q a = false := h1 a (List.mem_cons_self a t)
    simp only [List.cons_append, updFirst, ha, Bool.false_eq_true, if_false]
    rw [show t.append (fr :: l2) = t ++ fr :: l2 from rfl]
    rw [ih (fun x hx => h1 x (List.mem_cons_of_mem a hx))]

theorem removeById_append_middle (l1 l2 : List Frame) (fr : Frame)
    (h1 : ∀ x ∈ l1, x.id ≠ fr.id) :
    removeById (l1 ++ fr :: l2) fr.id = l1 ++ l2 := by
  induction l1 with
  | nil => simp [removeById, List.eraseP_cons]
  | cons a t ih =>
    have ha : (a.id == fr.id) = false := by
      simpa using h1 a (List.mem_cons_self a t)
    simp only [removeById, List.cons_append, List.eraseP_cons, ha, cond_false]
    rw [show (t ++ fr :: l2).eraseP (fun g => g.id == fr.id) =
          removeById (t ++ fr :: l2) fr.id from rfl]
    rw [ih (fun x hx => h1 x (List.mem_cons_of_mem a hx))]

theorem mem_decomp_nodup (l : List Frame) (fr : Frame) (hm : fr ∈ l)
    (hn : (l.map Frame.id).Nodup) :
    ∃ l1 l2, l = l1 ++ fr :: l2 ∧ (∀ x ∈ l1, x.id ≠ fr.id) ∧
      (∀ x ∈ l2, x.id ≠ fr.id) := by
  obtain ⟨l1, l2, rfl⟩ := List.append_of_mem hm
  rw [List.map_append, List.map_cons] at hn
  refine ⟨l1, l2, rfl, ?_, ?_⟩
  · intro x hx he
    have hd := (List.nodup_append.mp hn).2.2
    exact hd (List.mem_map_of_mem Frame.id hx)
      (by rw [he]; exact List.mem_cons_self _ _)
  · intro x hx he
    have hd := (List.nodup_append.mp hn).2.1
    exact (List.nodup_cons.mp hd).1 (by rw [← he]; exact List.mem_map_of_mem Frame.id hx)

theorem mem_of_ne_middle (l1 l2 : List Frame) (b x : Frame)
    (hm : x ∈ l1 ++ b :: l2) (hne : x ≠ b) : x ∈ l1 ++ l2 := by
  rcases List.mem_append.mp hm with h | h
  · exact List.mem_append_left _ h
  · rcases List.mem_cons.mp h with rfl | h
    · exact absurd rfl hne
    · exact List.mem_append_right _ h

theorem mem_middle_of_mem_sides (l1 l2 : List Frame) (b x : Frame)
    (h : x ∈ l1 ++ l2) : x ∈ l1 ++ b :: l2 := by
  rcases List.mem_append.mp h with h | h
  · exact List.mem_append_left _ h
  · exact List.mem_append_right _ (List.mem_cons_of_mem _ h)

theorem winAux_fst (active : Nat) (l acc : List Frame) (i : Int) :
    (winAux active l acc i).1 =
      acc ++ l.filter (fun fr => fr.c_lu == 0 && fr.c_rd == 0) := by
  induction l generalizing acc i with
  | nil => simp [winAux]
  | cons a t ih =>
    simp only [winAux]
    split
    next h =>
      rw [ih, List.filter_cons, if_pos h, List.append_assoc, List.singleton_append]
    next h =>
      rw [ih, List.filter_cons, if_neg h]

theorem winAux_snd_ge (active : Nat) (l acc : List Frame) (i : Int) (h : -1 ≤ i) :
    -1 ≤ (winAux active l acc i).2 := by
  induction l generalizing acc i with
  | nil => simpa [winAux] using h
  | cons a t ih =>
    simp only [winAux]
    split
    · apply ih
      split
      · simp only [List.length_append, List.length_singleton]
        push_cast
        omega
      · exact h
    · exact ih _ _ h

theorem pyGet_mem (l : List α) (i : Int) (a : α) (h : pyGet l i = some a) : a ∈ l := by
  unfold pyGet at h
  split at h
  · exact Option.noConfusion h
  · rw [List.getElem?_eq_some] at h
    obtain ⟨hlt, rfl⟩ := h
    exact List.getElem_mem _

theorem framesNext_fields (s s' : FramesState) (h : framesNext s = some s') :
    s'.fr_id = s.fr_id ∧ s'.frames = s.frames ∧ s'.root_id = s.root_id ∧
    ∃ fr ∈ s.frames, fr.c_lu = 0 ∧ fr.c_rd = 0 ∧ s'.active_id = fr.id := by
  have hw : (win_frames s).1 =
      s.frames.filter (fun fr => fr.c_lu == 0 && fr.c_rd == 0) := by
    rw [win_frames, winAux_fst, List.nil_append]
  simp only [framesNext] at h
  split at h <;>
  · obtain ⟨fr, hget, hs⟩ := Option.map_eq_some'.mp h
    have hmem : fr ∈ (win_frames s).1 := pyGet_mem _ _ _ hget
    rw [hw] at hmem
    have hleaf := List.of_mem_filter hmem
    have hmem' := List.mem_of_mem_filter hmem
    simp only [Bool.and_eq_true, beq_iff_eq] at hleaf
    exact ⟨by rw [← hs], by rw [← hs], by rw [← hs],
      fr, hmem', hleaf.1, hleaf.2, by rw [← hs]⟩

theorem framesNext_total (s : FramesState) (fr0 : Frame) (hm : fr0 ∈ s.frames)
    (hlu : fr0.c_lu = 0) (hrd : fr0.c_rd = 0) :
    ∃ s', framesNext s = some s' := by
  have hw : (win_frames s).1 =
      s.frames.filter (fun fr => fr.c_lu == 0 && fr.c_rd == 0) := by
    rw [win_frames, winAux_fst, List.nil_append]
  have hmem : fr0 ∈ (win_frames s).1 := by
    rw [hw]
    exact List.mem_filter.mpr ⟨hm, by simp [hlu, hrd]⟩
  have hlen : 1 ≤ (win_frames s).1.length :=
    List.length_pos.mpr (List.ne_nil_of_mem hmem)
  have hge : -1 ≤ (win_frames s).2 := winAux_snd_ge _ _ _ _ (le_refl _)
  simp only [framesNext]
  split
  next hlt =>
    rw [pyGet_eq_some _ _ (by omega) (by omega), Option.map_some']
    exact ⟨_, rfl⟩
  next hlt =>
    rw [pyGet_eq_some _ _ (by omega) (by omega), Option.map_some']
    exact ⟨_, rfl⟩

/-- Core of the root-parent branch of `Frames.delete`: removing the
internal parent and the deleted leaf preserves the structural parts of the
store invariant, and every other leaf survives the two removals. -/
theorem delete_remove_two_inv (s : FramesState) (id : Nat) (fr p_fr : Frame)
    (h : FramesInv s)
    (hfind : findFrame s id = some fr)
    (hlu : fr.c_lu = 0) (hrd : fr.c_rd = 0)
    (hpar : findParent s id = some p_fr) :
    (((removeById (removeById s.frames p_fr.id) fr.id).map Frame.id).Nodup ∧
     (∀ g ∈ removeById (removeById s.frames p_fr.id) fr.id, 1 ≤ g.id ∧ g.id ≤ s.fr_id) ∧
     (∀ g ∈ removeById (removeById s.frames p_fr.id) fr.id, g.c_lu = 0 ↔ g.c_rd = 0) ∧
     (removeById (removeById s.frames p_fr.id) fr.id).countP (fun g => leafF g)
       = (removeById (removeById s.frames p_fr.id) fr.id).countP (fun g => !leafF g) + 1 ∧
     (∀ g ∈ s.frames, g.id ≠ fr.id → g.c_lu = 0 → g.c_rd = 0 →
        g ∈ removeById (removeById s.frames p_fr.id) fr.id)) := by
  obtain ⟨h1, h2, h3, h4, h5⟩ := h
  unfold findFrame at hfind
  unfold findParent at hpar
  have hfr_mem : fr ∈ s.frames := List.mem_of_find?_eq_some hfind
  have hp_mem : p_fr ∈ s.frames := List.mem_of_find?_eq_some hpar
  have hfr_id : fr.id = id := by simpa using List.find?_some hfind
  have hpc : p_fr.c_lu = id ∨ p_fr.c_rd = id := by
    simpa using List.find?_some hpar
  have hid1 : 1 ≤ id := by
    have := h2 fr hfr_mem
    omega
  have hpleaf : leafF p_fr = false := by
    simp only [leafF, Bool.and_eq_false_iff, beq_eq_false_iff_ne, ne_eq]
    omega
  have hfleaf : leafF fr = true := by simp [leafF, hlu, hrd]
  have hfrne : fr ≠ p_fr := by
    intro he
    rw [he, hpleaf] at hfleaf
    exact Bool.noConfusion hfleaf
  obtain ⟨L1, L2, hL, hL1, hL2⟩ := mem_decomp_nodup s.frames p_fr hp_mem h1
  have hrm1 : removeById s.frames p_fr.id = L1 ++ L2 := by
    rw [hL]
    exact removeById_append_middle _ _ _ hL1
  have hnod1 : ((L1 ++ L2).map Frame.id).Nodup := by
    have hsub : (L1 ++ L2).Sublist (L1 ++ p_fr :: L2) :=
      List.Sublist.append_left (List.sublist_cons_self _ _) L1
    have h1' : ((L1 ++ p_fr :: L2).map Frame.id).Nodup := by rw [← hL]; exact h1
    exact List.Nodup.sublist (hsub.map Frame.id) h1'
  have hfrLL : fr ∈ L1 ++ L2 := by
    rw [hL] at hfr_mem
    exact mem_of_ne_middle _ _ _ _ hfr_mem hfrne
  obtain ⟨N1, N2, hN, hN1, hN2⟩ := mem_decomp_nodup (L1 ++ L2) fr hfrLL hnod1
  have hrm2 : removeById (L1 ++ L2) fr.id = N1 ++ N2 := by
    rw [hN]
    exact removeById_append_middle _ _ _ hN1
  have hFeq : removeById (removeById s.frames p_fr.id) fr.id = N1 ++ N2 := by
    rw [hrm1, hrm2]
  have hnod2 : ((N1 ++ N2).map Frame.id).Nodup := by
    have hsub : (N1 ++ N2).Sublist (N1 ++ fr :: N2) :=
      List.Sublist.append_left (List.sublist_cons_self _ _) N1
    have h1' : ((N1 ++ fr :: N2).map Frame.id).Nodup := by rw [← hN]; exact hnod1
    exact List.Nodup.sublist (hsub.map Frame.id) h1'
  have hsubF : ∀ g ∈ N1 ++ N2, g ∈ s.frames := by
    intro g hg
    have hg1 : g ∈ L1 ++ L2 := by
      rw [hN]
      exact mem_middle_of_mem_sides _ _ _ _ hg
    rw [hL]
    exact mem_middle_of_mem_sides _ _ _ _ hg1
  have hcL : ∀ p : Frame → Bool,
      s.frames.countP p = (L1 ++ L2).countP p + (if p p_fr then 1 else 0) := by
    intro p
    rw [hL]
    simp only [List.countP_append, List.countP_cons]
    omega
  have hcN : ∀ p : Frame → Bool,
      (L1 ++ L2).countP p = (N1 ++ N2).countP p + (if p fr then 1 else 0) := by
    intro p
    rw [hN]
    simp only [List.countP_append, List.countP_cons]
    omega
  refine ⟨?_, ?_, ?_, ?_, ?_⟩
  · rw [hFeq]
    exact hnod2
  · intro g hg
    rw [hFeq] at hg
    exact h2 g (hsubF g hg)
  · intro g hg
    rw [hFeq] at hg
    exact h3 g (hsubF g hg)
  · have e1 := hcL (fun g => leafF g)
    have e2 := hcL (fun g => !leafF g)
    have e3 := hcN (fun g => leafF g)
    have e4 := hcN (fun g => !leafF g)
    simp only [hpleaf, hfleaf, Bool.not_true, Bool.not_false, Bool.false_eq_true,
      if_false, if_true, add_zero] at e1 e2 e3 e4
    simp only [leafCount, internalCount] at h4
    rw [hFeq]
    omega
  · intro g hg hgne hglu hgrd
    have hgleaf : leafF g = true := by simp [leafF, hglu, hgrd]
    have hgnep : g ≠ p_fr := by
      intro he
      rw [he, hpleaf] at hgleaf
      exact Bool.noConfusion hgleaf
    have hgnefr : g ≠ fr := fun he => hgne (he ▸ rfl)
    rw [hFeq]
    have hg1 : g ∈ L1 ++ L2 := by
      rw [hL] at hg
      exact mem_of_ne_middle _ _ _ _ hg hgnep
    rw [hN] at hg1
    exact mem_of_ne_middle _ _ _ _ hg1 hgnefr

/-- Core of the grandparent branch of `Frames.delete`: relinking the
grandparent to the sibling and removing the parent and the deleted leaf
preserves the structural parts of the store invariant, and every other
leaf survives. -/
theorem delete_relink_inv (s : FramesState) (id : Nat) (fr p_fr pp_fr : Frame)
    (F : List Frame) (h : FramesInv s)
    (hfind : findFrame s id = some fr)
    (hlu : fr.c_lu = 0) (hrd : fr.c_rd = 0)
    (hpar : findParent s id = some p_fr)
    (hppar : findParent s p_fr.id = some pp_fr)
    (hppc : pp_fr.c_lu = p_fr.id ∨ pp_fr.c_rd = p_fr.id)
    (hF : F = removeById (removeById
      (updFirst (fun g => g.c_lu == p_fr.id || g.c_rd == p_fr.id)
        (fun g => if pp_fr.c_lu = p_fr.id
          then { g with c_lu := if p_fr.c_lu = id then p_fr.c_rd else p_fr.c_lu }
          else { g with c_rd := if p_fr.c_lu = id then p_fr.c_rd else p_fr.c_lu })
        s.frames) p_fr.id) fr.id) :
    ((F.map Frame.id).Nodup ∧
     (∀ g ∈ F, 1 ≤ g.id ∧ g.id ≤ s.fr_id) ∧
     (∀ g ∈ F, g.c_lu = 0 ↔ g.c_rd = 0) ∧
     F.countP (fun g => leafF g) = F.countP (fun g => !leafF g) + 1 ∧
     (∀ g ∈ s.frames, g.id ≠ fr.id → g.c_lu = 0 → g.c_rd = 0 → g ∈ F)) := by
  obtain ⟨h1, h2, h3, h4, h5⟩ := h
  unfold findFrame at hfind
  unfold findParent at hpar hppar
  have hfr_mem : fr ∈ s.frames := List.mem_of_find?_eq_some hfind
  have hp_mem : p_fr ∈ s.frames := List.mem_of_find?_eq_some hpar
  have hpp_mem : pp_fr ∈ s.frames := List.mem_of_find?_eq_some hppar
  have hfr_id : fr.id = id := by simpa using List.find?_some hfind
  have hpc : p_fr.c_lu = id ∨ p_fr.c_rd = id := by
    simpa using List.find?_some hpar
  have hid1 : 1 ≤ id := by
    have := h2 fr hfr_mem
    omega
  have hpid1 : 1 ≤ p_fr.id := (h2 p_fr hp_mem).1
  have h3p := h3 p_fr hp_mem
  have h3pp := h3 pp_fr hpp_mem
  have hpleaf : leafF p_fr = false := by
    simp only [leafF, Bool.and_eq_false_iff, beq_eq_false_iff_ne, ne_eq]
    omega
  have hppleaf : leafF pp_fr = false := by
    simp only [leafF, Bool.and_eq_false_iff, beq_eq_false_iff_ne, ne_eq]
    omega
  have hfleaf : leafF fr = true := by simp [leafF, hlu, hrd]
  have hsib_ne : (if p_fr.c_lu = id then p_fr.c_rd else p_fr.c_lu) ≠ 0 := by
    split
    · omega
    · omega
  obtain ⟨L1, L2, hL, hL1, hLq⟩ := find?_decomp _ _ _ hppar
  have hupd : updFirst (fun g => g.c_lu == p_fr.id || g.c_rd == p_fr.id)
      (fun g => if pp_fr.c_lu = p_fr.id
        then { g with c_lu := if p_fr.c_lu = id then p_fr.c_rd else p_fr.c_lu }
        else { g with c_rd := if p_fr.c_lu = id then p_fr.c_rd else p_fr.c_lu })
      s.frames
      = L1 ++ (if pp_fr.c_lu = p_fr.id
          then { pp_fr with c_lu := if p_fr.c_lu = id then p_fr.c_rd else p_fr.c_lu }
          else { pp_fr with c_rd := if p_fr.c_lu = id then p_fr.c_rd else p_fr.c_lu }) :: L2 := by
    rw [hL]
    exact updFirst_append_middle _ _ _ _ _ hL1 hLq
  set M : Frame := (if pp_fr.c_lu = p_fr.id
      then { pp_fr with c_lu := if p_fr.c_lu = id then p_fr.c_rd else p_fr.c_lu }
      else { pp_fr with c_rd := if p_fr.c_lu = id then p_fr.c_rd else p_fr.c_lu }) with hM
  have hMid : M.id = pp_fr.id := by
    rw [hM]
    split <;> rfl
  have hMne : M.c_lu ≠ 0 ∧ M.c_rd ≠ 0 := by
    rw [hM]
    split
    next hcase =>
      constructor
      · show (if p_fr.c_lu = id then p_fr.c_rd else p_fr.c_lu) ≠ 0
        exact hsib_ne
      · show pp_fr.c_rd ≠ 0
        omega
    next hcase =>
      constructor
      · show pp_fr.c_lu ≠ 0
        omega
      · show (if p_fr.c_lu = id then p_fr.c_rd else p_fr.c_lu) ≠ 0
        exact hsib_ne
  have hMleaf : leafF M = false := by
    simp only [leafF, Bool.and_eq_false_iff, beq_eq_false_iff_ne, ne_eq]
    left
    exact hMne.1
  have hMbound : 1 ≤ M.id ∧ M.id ≤ s.fr_id := by
    rw [hMid]
    exact h2 pp_fr hpp_mem
  have hmap1 : (L1 ++ M :: L2).map Frame.id = s.frames.map Frame.id := by
    rw [← hupd]
    exact updFirst_map_id _ _ _ (fun g hg => by split <;> rfl)
  have hnod1 : ((L1 ++ M :: L2).map Frame.id).Nodup := by
    rw [hmap1]
    exact h1
  have hfrne_pp : fr ≠ pp_fr := by
    intro he
    rw [he, hppleaf] at hfleaf
    exact Bool.noConfusion hfleaf
  have hfr1 : fr ∈ L1 ++ M :: L2 := by
    apply mem_middle_of_mem_sides
    rw [hL] at hfr_mem
    exact mem_of_ne_middle _ _ _ _ hfr_mem hfrne_pp
  have hmem1 : ∀ g ∈ L1 ++ M :: L2, g ∈ s.frames ∨ g = M := by
    intro g hg
    rcases List.mem_append.mp hg with hg | hg
    · exact Or.inl (by rw [hL]; exact List.mem_append_left _ hg)
    · rcases List.mem_cons.mp hg with rfl | hg
      · exact Or.inr rfl
      · exact Or.inl (by
          rw [hL]
          exact List.mem_append_right _ (List.mem_cons_of_mem _ hg))
  have hq1 : ∃ q1, q1 ∈ L1 ++ M :: L2 ∧ q1.id = p_fr.id ∧ leafF q1 = false := by
    rw [hL] at hp_mem
    rcases List.mem_append.mp hp_mem with hg | hg
    · exact ⟨p_fr, List.mem_append_left _ hg, rfl, hpleaf⟩
    · rcases List.mem_cons.mp hg with rfl | hg
      · exact ⟨M, List.mem_append_right _ (List.mem_cons_self _ _), hMid, hMleaf⟩
      · exact ⟨p_fr, List.mem_append_right _ (List.mem_cons_of_mem _ hg), rfl, hpleaf⟩
  obtain ⟨q1, hq1mem, hq1id, hq1leaf⟩ := hq1
  obtain ⟨M1, M2, hMdec, hM1, hM2⟩ := mem_decomp_nodup _ q1 hq1mem hnod1
  have hrm1 : removeById (L1 ++ M :: L2) p_fr.id = M1 ++ M2 := by
    rw [← hq1id, hMdec]
    exact removeById_append_middle _ _ _ hM1
  have hnod2 : ((M1 ++ M2).map Frame.id).Nodup := by
    have hsub : (M1 ++ M2).Sublist (M1 ++ q1 :: M2) :=
      List.Sublist.append_left (List.sublist_cons_self _ _) M1
    have h1' : ((M1 ++ q1 :: M2).map Frame.id).Nodup := by rw [← hMdec]; exact hnod1
    exact List.Nodup.sublist (hsub.map Frame.id) h1'
  have hfrneq1 : fr ≠ q1 := by
    intro he
    rw [he, hq1leaf] at hfleaf
    exact Bool.noConfusion hfleaf
  have hfr2 : fr ∈ M1 ++ M2 := by
    rw [hMdec] at hfr1
    exact mem_of_ne_middle _ _ _ _ hfr1 hfrneq1
  obtain ⟨N1, N2, hNdec, hN1, hN2⟩ := mem_decomp_nodup _ fr hfr2 hnod2
  have hrm2 : removeById (M1 ++ M2) fr.id = N1 ++ N2 := by
    rw [hNdec]
    exact removeById_append_middle _ _ _ hN1
  have hFeq : F = N1 ++ N2 := by
    rw [hF, hupd, hrm1, hrm2]
  have hnod3 : ((N1 ++ N2).map Frame.id).Nodup := by
    have hsub : (N1 ++ N2).Sublist (N1 ++ fr :: N2) :=
      List.Sublist.append_left (List.sublist_cons_self _ _) N1
    have h1' : ((N1 ++ fr :: N2).map Frame.id).Nodup := by rw [← hNdec]; exact hnod2
    exact List.Nodup.sublist (hsub.map Frame.id) h1'
  have hsubF : ∀ g ∈ N1 ++ N2, g ∈ s.frames ∨ g = M := by
    intro g hg
    have hg2 : g ∈ M1 ++ M2 := by
      rw [hNdec]
      exact mem_middle_of_mem_sides _ _ _ _ hg
    have hg1 : g ∈ L1 ++ M :: L2 := by
      rw [hMdec]
      exact mem_middle_of_mem_sides _ _ _ _ hg2
    exact hmem1 g hg1
  have hcU : ∀ p : Frame → Bool,
      (L1 ++ M :: L2).countP p + (if p pp_fr then 1 else 0)
        = s.frames.countP p + (if p M then 1 else 0) := by
    intro p
    rw [hL]
    simp only [List.countP_append, List.countP_cons]
    omega
  have hc1 : ∀ p : Frame → Bool,
      (L1 ++ M :: L2).countP p = (M1 ++ M2).countP p + (if p q1 then 1 else 0) := by
    intro p
    rw [hMdec]
    simp only [List.countP_append, List.countP_cons]
    omega
  have hc2 : ∀ p : Frame → Bool,
      (M1 ++ M2).countP p = (N1 ++ N2).countP p + (if p fr then 1 else 0) := by
    intro p
    rw [hNdec]
    simp only [List.countP_append, List.countP_cons]
    omega
  refine ⟨?_, ?_, ?_, ?_, ?_⟩
  · rw [hFeq]
    exact hnod3
  · intro g hg
    rw [hFeq] at hg
    rcases hsubF g hg with hg | rfl
    · exact h2 g hg
    · exact hMbound
  · intro g hg
    rw [hFeq] at hg
    rcases hsubF g hg with hg | rfl
    · exact h3 g hg
    · constructor
      · intro he
        exact absurd he hMne.1
      · intro he
        exact absurd he hMne.2
  · have e0l := hcU (fun g => leafF g)
    have e0i := hcU (fun g => !leafF g)
    have e1l := hc1 (fun g => leafF g)
    have e1i := hc1 (fun g => !leafF g)
    have e2l := hc2 (fun g => leafF g)
    have e2i := hc2 (fun g => !leafF g)
    simp only [hppleaf, hMleaf, hq1leaf, hfleaf, Bool.not_true, Bool.not_false,
      Bool.false_eq_true, if_false, if_true, add_zero] at e0l e0i e1l e1i e2l e2i
    simp only [leafCount, internalCount] at h4
    rw [hFeq]
    omega
  · intro g hg hgne hglu hgrd
    have hgleaf : leafF g = true := by simp [leafF, hglu, hgrd]
    have hgnepp : g ≠ pp_fr := by
      intro he
      rw [he, hppleaf] at hgleaf
      exact Bool.noConfusion hgleaf
    have hgneq1 : g ≠ q1 := by
      intro he
      rw [he, hq1leaf] at hgleaf
      exact Bool.noConfusion hgleaf
    have hgnefr : g ≠ fr := fun he => hgne (he ▸ rfl)
    rw [hFeq]
    have hg1 : g ∈ L1 ++ M :: L2 := by
      apply mem_middle_of_mem_sides
      rw [hL] at hg
      exact mem_of_ne_middle _ _ _ _ hg hgnepp
    have hg2 : g ∈ M1 ++ M2 := by
      rw [hMdec] at hg1
      exact mem_of_ne_middle _ _ _ _ hg1 hgneq1
    rw [hNdec] at hg2
    exact mem_of_ne_middle _ _ _ _ hg2 hgnefr

/-- `Frames.split` preserves the structural store invariant. -/
theorem framesInv_split (s : FramesState) (id0 : Nat) (dir : Direction)
    (b : Bool) (s' : FramesState) (h : FramesInv s)
    (heq : framesSplit s id0 dir = (b, s')) : FramesInv s' := by
  simp only [framesSplit] at heq
  split at heq
  · cases heq
    exact h
  next fr hfind =>
    split at heq
    · cases heq
      exact h
    next hch =>
      push_neg at hch
      obtain ⟨hlu, hrd⟩ := hch
      obtain ⟨h1, h2, h3, h4, h5⟩ := h
      have hfind' := hfind
      unfold findFrame at hfind'
      have hfr_mem : fr ∈ s.frames := List.mem_of_find?_eq_some hfind'
      have hfr_id : fr.id = (if id0 = 0 then s.active_id else id0) := by
        simpa using List.find?_some hfind'
      obtain ⟨L1, L2, hL, hL1, hLq⟩ := find?_decomp _ _ _ hfind'
      have hupd : updFirst (fun g => g.id == (if id0 = 0 then s.active_id else id0))
          (fun _ => splitFrame s fr dir) s.frames
          = L1 ++ splitFrame s fr dir :: L2 := by
        rw [hL]
        exact updFirst_append_middle _ _ _ _ _ hL1 hLq
      have hAleaf : leafF (splitFrame s fr dir) = false := by
        simp only [leafF, splitFrame, Bool.and_eq_false_iff, beq_eq_false_iff_ne, ne_eq]
        left
        omega
      have hfleaf : leafF fr = true := by simp [leafF, hlu, hrd]
      have hmk : ∀ (k : Nat) (c : Option Nat), leafF (mkFrame k c) = true := fun k c => rfl
      have hmapU : (L1 ++ splitFrame s fr dir :: L2).map Frame.id
          = s.frames.map Frame.id := by
        rw [← hupd]
        refine updFirst_map_id _ _ _ (fun g hg => ?_)
        simp only [beq_iff_eq] at hg
        show fr.id = g.id
        rw [hg, ← hfr_id]
      have hbound : ∀ i ∈ s.frames.map Frame.id, 1 ≤ i ∧ i ≤ s.fr_id := by
        intro i hi
        obtain ⟨g, hg, rfl⟩ := List.mem_map.mp hi
        exact h2 g hg
      have hnodF : (((L1 ++ splitFrame s fr dir :: L2) ++
          [mkFrame (s.fr_id + 1) fr.content,
           mkFrame (s.fr_id + 2) fr.content]).map Frame.id).Nodup := by
        rw [List.map_append, hmapU]
        apply List.Nodup.append h1
        · simp only [List.map_cons, List.map_nil, mkFrame, List.nodup_cons,
            List.mem_singleton, List.not_mem_nil, not_false_iff, and_true,
            List.nodup_nil]
          omega
        · intro i hi1 hi2
          have hle := (hbound i hi1).2
          simp only [List.map_cons, List.map_nil, mkFrame, List.mem_cons,
            List.not_mem_nil, or_false] at hi2
          omega
      have hmemF : ∀ g, g ∈ (L1 ++ splitFrame s fr dir :: L2) ++
            [mkFrame (s.fr_id + 1) fr.content, mkFrame (s.fr_id + 2) fr.content] →
          g ∈ s.frames ∨ g = splitFrame s fr dir ∨
          g = mkFrame (s.fr_id + 1) fr.content ∨
          g = mkFrame (s.fr_id + 2) fr.content := by
        intro g hg
        rcases List.mem_append.mp hg with hg | hg
        · rcases List.mem_append.mp hg with hg | hg
          · exact Or.inl (by rw [hL]; exact List.mem_append_left _ hg)
          · rcases List.mem_cons.mp hg with rfl | hg
            · exact Or.inr (Or.inl rfl)
            · exact Or.inl (by
                rw [hL]
                exact List.mem_append_right _ (List.mem_cons_of_mem _ hg))
        · rcases List.mem_cons.mp hg with rfl | hg
          · exact Or.inr (Or.inr (Or.inl rfl))
          · rcases List.mem_cons.mp hg with rfl | hg
            · exact Or.inr (Or.inr (Or.inr rfl))
            · exact absurd hg (List.not_mem_nil g)
      have hcnt : ∀ p : Frame → Bool,
          ((L1 ++ splitFrame s fr dir :: L2) ++
            [mkFrame (s.fr_id + 1) fr.content,
             mkFrame (s.fr_id + 2) fr.content]).countP p + (if p fr then 1 else 0)
          = s.frames.countP p + (if p (splitFrame s fr dir) then 1 else 0)
            + (if p (mkFrame (s.fr_id + 1) fr.content) then 1 else 0)
            + (if p (mkFrame (s.fr_id + 2) fr.content) then 1 else 0) := by
        intro p
        rw [hL]
        simp only [List.countP_append, List.countP_cons, List.countP_nil]
        omega
      have hcl := hcnt (fun g => leafF g)
      have hci := hcnt (fun g => !leafF g)
      simp only [hfleaf, hAleaf, hmk, Bool.not_true, Bool.not_false,
        Bool.false_eq_true, if_false, if_true, add_zero] at hcl hci
      simp only [leafCount, internalCount] at h4
      split at heq
      next hact =>
        cases heq
        refine ⟨?_, ?_, ?_, ?_, ?_⟩
        · show (((updFirst _ _ s.frames) ++ _).map Frame.id).Nodup
          rw [hupd]
          exact hnodF
        · intro g hg
          rw [show (updFirst (fun g => g.id ==
              (if id0 = 0 then s.active_id else id0))
              (fun _ => splitFrame s fr dir) s.frames) ++
              [mkFrame (s.fr_id + 1) fr.content, mkFrame (s.fr_id + 2) fr.content]
              = (L1 ++ splitFrame s fr dir :: L2) ++
              [mkFrame (s.fr_id + 1) fr.content, mkFrame (s.fr_id + 2) fr.content]
            from by rw [hupd]] at hg
          rcases hmemF g hg with hg | rfl | rfl | rfl
          · have := h2 g hg
            constructor
            · exact this.1
            · show g.id ≤ s.fr_id + 2
              omega
          · have := h2 fr hfr_mem
            show 1 ≤ fr.id ∧ fr.id ≤ s.fr_id + 2
            omega
          · show 1 ≤ s.fr_id + 1 ∧ s.fr_id + 1 ≤ s.fr_id + 2
            omega
          · show 1 ≤ s.fr_id + 2 ∧ s.fr_id + 2 ≤ s.fr_id + 2
            omega
        · intro g hg
          rw [show (updFirst (fun g => g.id ==
              (if id0 = 0 then s.active_id else id0))
              (fun _ => splitFrame s fr dir) s.frames) ++
              [mkFrame (s.fr_id + 1) fr.content, mkFrame (s.fr_id + 2) fr.content]
              = (L1 ++ splitFrame s fr dir :: L2) ++
              [mkFrame (s.fr_id + 1) fr.content, mkFrame (s.fr_id + 2) fr.content]
            from by rw [hupd]] at hg
          rcases hmemF g hg with hg | rfl | rfl | rfl
          · exact h3 g hg
          · show s.fr_id + 1 = 0 ↔ s.fr_id + 2 = 0
            omega
          · show (0 : Nat) = 0 ↔ (0 : Nat) = 0
            omega
          · show (0 : Nat) = 0 ↔ (0 : Nat) = 0
            omega
        · show (((updFirst _ _ s.frames) ++ _).countP (fun g => leafF g))
            = (((updFirst _ _ s.frames) ++ _).countP (fun g => !leafF g)) + 1
          rw [hupd]
          omega
        · refine ⟨mkFrame (s.fr_id + 1) fr.content, ?_, rfl, rfl, rfl⟩
          exact List.mem_append_right _ (List.mem_cons_self _ _)
      next hact =>
        cases heq
        obtain ⟨g, hgmem, hgid, hglu, hgrd⟩ := h5
        have hgne : g ≠ fr := by
          intro he
          rw [he] at hgid
          exact hact hgid
        refine ⟨?_, ?_, ?_, ?_, ?_⟩
        · show (((updFirst _ _ s.frames) ++ _).map Frame.id).Nodup
          rw [hupd]
          exact hnodF
        · intro g' hg'
          rw [show (updFirst (fun g => g.id ==
              (if id0 = 0 then s.active_id else id0))
              (fun _ => splitFrame s fr dir) s.frames) ++
              [mkFrame (s.fr_id + 1) fr.content, mkFrame (s.fr_id + 2) fr.content]
              = (L1 ++ splitFrame s fr dir :: L2) ++
              [mkFrame (s.fr_id + 1) fr.content, mkFrame (s.fr_id + 2) fr.content]
            from by rw [hupd]] at hg'
          rcases hmemF g' hg' with hg' | rfl | rfl | rfl
          · have := h2 g' hg'
            constructor
            · exact this.1
            · show g'.id ≤ s.fr_id + 2
              omega
          · have := h2 fr hfr_mem
            show 1 ≤ fr.id ∧ fr.id ≤ s.fr_id + 2
            omega
          · show 1 ≤ s.fr_id + 1 ∧ s.fr_id + 1 ≤ s.fr_id + 2
            omega
          · show 1 ≤ s.fr_id + 2 ∧ s.fr_id + 2 ≤ s.fr_id + 2
            omega
        · intro g' hg'
          rw [show (updFirst (fun g => g.id ==
              (if id0 = 0 then s.active_id else id0))
              (fun _ => splitFrame s fr dir) s.frames) ++
              [mkFrame (s.fr_id + 1) fr.content, mkFrame (s.fr_id + 2) fr.content]
              = (L1 ++ splitFrame s fr dir :: L2) ++
              [mkFrame (s.fr_id + 1) fr.content, mkFrame (s.fr_id + 2) fr.content]
            from by rw [hupd]] at hg'
          rcases hmemF g' hg' with hg' | rfl | rfl | rfl
          · exact h3 g' hg'
          · show s.fr_id + 1 = 0 ↔ s.fr_id + 2 = 0
            omega
          · show (0 : Nat) = 0 ↔ (0 : Nat) = 0
            omega
          · show (0 : Nat) = 0 ↔ (0 : Nat) = 0
            omega
        · show (((updFirst _ _ s.frames) ++ _).countP (fun g => leafF g))
            = (((updFirst _ _ s.frames) ++ _).countP (fun g => !leafF g)) + 1
          rw [hupd]
          omega
        · refine ⟨g, ?_, hgid, hglu, hgrd⟩
          rw [hupd]
          apply List.mem_append_left
          apply mem_middle_of_mem_sides
          rw [hL] at hgmem
          exact mem_of_ne_middle _ _ _ _ hgmem hgne

/-- `Frames.delete` preserves the structural store invariant. -/
theorem framesInv_delete (s : FramesState) (id0 : Nat) (b : Bool) (s' : FramesState)
    (h : FramesInv s) (heq : framesDelete s id0 = some (b, s')) : FramesInv s' := by
  simp only [framesDelete] at heq
  generalize hidr : (if id0 = 0 then s.active_id else id0) = idr at heq
  split at heq
  · simp only [Option.some.injEq, Prod.mk.injEq] at heq
    obtain ⟨rfl, rfl⟩ := heq
    exact h
  next fr hfind =>
    split at heq
    · simp only [Option.some.injEq, Prod.mk.injEq] at heq
      obtain ⟨rfl, rfl⟩ := heq
      exact h
    next hch =>
      push_neg at hch
      split at heq
      · simp only [Option.some.injEq, Prod.mk.injEq] at heq
        obtain ⟨rfl, rfl⟩ := heq
        exact h
      next hroot =>
        split at heq
        · simp only [Option.some.injEq, Prod.mk.injEq] at heq
          obtain ⟨rfl, rfl⟩ := heq
          exact h
        next p_fr hpar =>
          have hfr_id : fr.id = idr := by
            have hfind' := hfind
            unfold findFrame at hfind'
            simpa using List.find?_some hfind'
          split at heq
          next hproot =>
            split at heq
            next hpc =>
              obtain ⟨k1, k2, k3, k4, k5⟩ :=
                delete_remove_two_inv s idr fr p_fr h hfind hch.1 hch.2 hpar
              split at heq
              next hactive =>
                obtain ⟨s2, hnext, hpair⟩ := Option.map_eq_some'.mp heq
                simp only [Prod.mk.injEq] at hpair
                obtain ⟨rfl, rfl⟩ := hpair
                obtain ⟨hfid, hfra, hroo, fr2, hfr2mem, hfr2lu, hfr2rd, hact2⟩ :=
                  framesNext_fields _ _ hnext
                refine ⟨?_, ?_, ?_, ?_, ?_⟩
                · rw [hfra]
                  exact k1
                · rw [hfra, hfid]
                  exact k2
                · rw [hfra]
                  exact k3
                · simp only [leafCount, internalCount]
                  rw [hfra]
                  exact k4
                · exact ⟨fr2, by rw [hfra]; exact hfr2mem, hact2.symm, hfr2lu, hfr2rd⟩
              next hactive =>
                simp only [Option.some.injEq, Prod.mk.injEq] at heq
                obtain ⟨rfl, rfl⟩ := heq
                obtain ⟨g, hgmem, hgid, hglu, hgrd⟩ := h.2.2.2.2
                have hgne : g.id ≠ fr.id := by
                  rw [hgid, hfr_id]
                  intro he
                  exact hactive he.symm
                exact ⟨k1, k2, k3, k4, g, k5 g hgmem hgne hglu hgrd, hgid, hglu, hgrd⟩
            next hpc =>
              simp only [Option.some.injEq, Prod.mk.injEq] at heq
              obtain ⟨rfl, rfl⟩ := heq
              exact h
          next hproot =>
            split at heq
            · simp only [Option.some.injEq, Prod.mk.injEq] at heq
              obtain ⟨rfl, rfl⟩ := heq
              exact h
            next pp_fr hppar =>
              split at heq
              next hpc =>
                split at heq
                next hppc =>
                  obtain ⟨k1, k2, k3, k4, k5⟩ :=
                    delete_relink_inv s idr fr p_fr pp_fr _ h hfind hch.1 hch.2
                      hpar hppar hppc rfl
                  split at heq
                  next hactive =>
                    obtain ⟨s2, hnext, hpair⟩ := Option.map_eq_some'.mp heq
                    simp only [Prod.mk.injEq] at hpair
                    obtain ⟨rfl, rfl⟩ := hpair
                    obtain ⟨hfid, hfra, hroo, fr2, hfr2mem, hfr2lu, hfr2rd, hact2⟩ :=
                      framesNext_fields _ _ hnext
                    refine ⟨?_, ?_, ?_, ?_, ?_⟩
                    · rw [hfra]
                      exact k1
                    · rw [hfra, hfid]
                      exact k2
                    · rw [hfra]
                      exact k3
                    · simp only [leafCount, internalCount]
                      rw [hfra]
                      exact k4
                    · exact ⟨fr2, by rw [hfra]; exact hfr2mem, hact2.symm, hfr2lu, hfr2rd⟩
                  next hactive =>
                    simp only [Option.some.injEq, Prod.mk.injEq] at heq
                    obtain ⟨rfl, rfl⟩ := heq
                    obtain ⟨g, hgmem, hgid, hglu, hgrd⟩ := h.2.2.2.2
                    have hgne : g.id ≠ fr.id := by
                      rw [hgid, hfr_id]
                      intro he
                      exact hactive he.symm
                    exact ⟨k1, k2, k3, k4, g, k5 g hgmem hgne hglu hgrd, hgid, hglu, hgrd⟩
                next hppc =>
                  simp only [Option.some.injEq, Prod.mk.injEq] at heq
                  obtain ⟨rfl, rfl⟩ := heq
                  exact h
              next hpc =>
                simp only [Option.some.injEq, Prod.mk.injEq] at heq
                obtain ⟨rfl, rfl⟩ := heq
                exact h

/-- Every state reachable from a fresh `Frames()` by `split`/`delete`
calls satisfies the structural store invariant. -/
theorem reached_framesInv (s : FramesState) (h : Reached s) : FramesInv s := by
  induction h with
  | init => decide
  | split s id0 dir b s' _ heq ih => exact framesInv_split s id0 dir b s' ih heq
  | delete s id0 b s' _ heq ih => exact framesInv_delete s id0 b s' ih heq

/-- C6: in every state reachable from a fresh `Frames()` instance by an
arbitrary sequence of `split`/`delete` calls, every frame has either
exactly two children (internal) or zero children (leaf), the number of
leaf frames equals the number of internal frames plus one, and
`active_id` names a frame that exists in the store and is a leaf. -/
theorem frames_tree_shape_invariant (s : FramesState) (h : Reached s) :
    (∀ fr ∈ s.frames, (fr.c_lu ≠ 0 ∧ fr.c_rd ≠ 0) ∨ (fr.c_lu = 0 ∧ fr.c_rd = 0)) ∧
    leafCount s = internalCount s + 1 ∧
    ∃ fr ∈ s.frames, fr.id = s.active_id ∧ fr.c_lu = 0 ∧ fr.c_rd = 0 := by
  obtain ⟨h1, h2, h3, h4, h5⟩ := reached_framesInv s h
  refine ⟨?_, h4, h5⟩
  intro fr hm
  have := h3 fr hm
  omega

/-- C6 witness: the invariant evaluated on the state reached by splitting
the fresh instance once. -/
theorem frames_tree_shape_invariant_witness :
    Reached (framesSplit framesInit 0 Direction.horizontal).2 ∧
    ((∀ fr ∈ (framesSplit framesInit 0 Direction.horizontal).2.frames,
        (fr.c_lu ≠ 0 ∧ fr.c_rd ≠ 0) ∨ (fr.c_lu = 0 ∧ fr.c_rd = 0)) ∧
     leafCount (framesSplit framesInit 0 Direction.horizontal).2
       = internalCount (framesSplit framesInit 0 Direction.horizontal).2 + 1 ∧
     ∃ fr ∈ (framesSplit framesInit 0 Direction.horizontal).2.frames,
       fr.id = (framesSplit framesInit 0 Direction.horizontal).2.active_id ∧
       fr.c_lu = 0 ∧ fr.c_rd = 0) :=
  have hr : Reached (framesSplit framesInit 0 Direction.horizontal).2 :=
    Reached.split framesInit 0 Direction.horizontal
      (framesSplit framesInit 0 Direction.horizontal).1
      (framesSplit framesInit 0 Direction.horizontal).2 Reached.init rfl
  ⟨hr, frames_tree_shape_invariant _ hr⟩

theorem preorder_parent (s : FramesState) (fuel : Nat) (r i : Nat)
    (h : i ∈ preorderIds s fuel r) :
    i = r ∨ ∃ p ∈ s.frames, p.c_lu = i ∨ p.c_rd = i := by
  induction fuel generalizing r with
  | zero => exact absurd h (List.not_mem_nil i)
  | succ fuel ih =>
    simp only [preorderIds] at h
    split at h
    · exact absurd h (List.not_mem_nil i)
    next fr hfind =>
      split at h
      next hint =>
        rcases List.mem_cons.mp h with rfl | h
        · exact Or.inl rfl
        · rcases List.mem_append.mp h with h | h
          · rcases ih fr.c_lu h with rfl | hp
            · refine Or.inr ⟨fr, ?_, Or.inl rfl⟩
              unfold findFrame at hfind
              exact List.mem_of_find?_eq_some hfind
            · exact Or.inr hp
          · rcases ih fr.c_rd h with rfl | hp
            · refine Or.inr ⟨fr, ?_, Or.inr rfl⟩
              unfold findFrame at hfind
              exact List.mem_of_find?_eq_some hfind
            · exact Or.inr hp
      next hint =>
        obtain rfl := List.mem_singleton.mp h
        exact Or.inl rfl

/-- Under the spec's tree invariant every non-root frame has a parent in
the store. -/
theorem parent_exists_of_treeInv (s : FramesState) (h : TreeInv s) (fr : Frame)
    (hm : fr ∈ s.frames) (hne : fr.id ≠ s.root_id) :
    ∃ p_fr, findParent s fr.id = some p_fr := by
  obtain ⟨hinv, hperm⟩ := h
  have hid : fr.id ∈ preorderIds s (s.frames.length + 1) s.root_id :=
    hperm.mem_iff.mpr (List.mem_map_of_mem Frame.id hm)
  rcases preorder_parent s _ _ _ hid with he | ⟨p, hp, hc⟩
  · exact absurd he hne
  · have hsome : (s.frames.find? (fun g => g.c_lu == fr.id || g.c_rd == fr.id)).isSome := by
      rw [List.find?_isSome]
      exact ⟨p, hp, by rcases hc with hc | hc <;> simp [hc]⟩
    obtain ⟨p_fr, hp_fr⟩ := Option.isSome_iff_exists.mp hsome
    exact ⟨p_fr, by unfold findParent; exact hp_fr⟩

/-- Totality of the active-frame hand-off after a successful delete: if
the remaining store still has a leaf, `next()` succeeds. -/
theorem framesNext_map_total (st : FramesState)
    (hleaf : 0 < st.frames.countP (fun g => leafF g)) :
    ∃ z, (framesNext st).map (fun x => (true, x)) = some (true, z) := by
  obtain ⟨g, hgmem, hgleaf⟩ := List.countP_pos_iff.mp hleaf
  simp only [leafF, Bool.and_eq_true, beq_iff_eq] at hgleaf
  obtain ⟨s2, hnext⟩ := framesNext_total st g hgmem hgleaf.1 hgleaf.2
  exact ⟨s2, by rw [hnext]; rfl⟩

/-- C7: under the spec's tree invariant, `delete(id)` (with `id = 0`
resolved to the active frame) always returns a boolean — never an
exception-like abort — and it returns `False` with the state completely
unchanged exactly when the resolved id names the root, no existing frame,
or a frame with children; in all other cases it succeeds. -/
theorem framesDelete_failure_spec (s : FramesState) (id0 : Nat) (h : TreeInv s) :
    ∃ b s', framesDelete s id0 = some (b, s') ∧
      (b = false ↔
        ((if id0 = 0 then s.active_id else id0) = s.root_id ∨
         findFrame s (if id0 = 0 then s.active_id else id0) = none ∨
         ∃ fr, findFrame s (if id0 = 0 then s.active_id else id0) = some fr ∧
           (fr.c_lu ≠ 0 ∨ fr.c_rd ≠ 0))) ∧
      (b = false → s' = s) := by
  rcases hfind : findFrame s (if id0 = 0 then s.active_id else id0) with _ | fr
  · refine ⟨false, s, ?_, ?_, fun _ => rfl⟩
    · simp only [framesDelete, hfind]
    · exact iff_of_true rfl (Or.inr (Or.inl rfl))
  · have hfind' := hfind
    unfold findFrame at hfind'
    have hfr_mem : fr ∈ s.frames := List.mem_of_find?_eq_some hfind'
    have hfr_id : fr.id = (if id0 = 0 then s.active_id else id0) := by
      simpa using List.find?_some hfind'
    by_cases hch0 : fr.c_lu ≠ 0 ∨ fr.c_rd ≠ 0
    · refine ⟨false, s, ?_, ?_, fun _ => rfl⟩
      · simp only [framesDelete, hfind]
        rw [if_pos hch0]
      · exact iff_of_true rfl (Or.inr (Or.inr ⟨fr, rfl, hch0⟩))
    · have hch : fr.c_lu = 0 ∧ fr.c_rd = 0 := by
        push_neg at hch0
        exact hch0
      have hch' : ¬(fr.c_lu ≠ 0 ∨ fr.c_rd ≠ 0) := by
        push_neg
        exact hch
      by_cases hroot : fr.id = s.root_id
      · refine ⟨false, s, ?_, ?_, fun _ => rfl⟩
        · simp only [framesDelete, hfind]
          rw [if_neg hch', if_pos hroot]
        · exact iff_of_true rfl (Or.inl (by rw [← hfr_id]; exact hroot))
      · obtain ⟨p_fr, hpar⟩ := parent_exists_of_treeInv s h fr hfr_mem hroot
        rw [hfr_id] at hpar
        have hpar' := hpar
        unfold findParent at hpar'
        have hp_mem : p_fr ∈ s.frames := List.mem_of_find?_eq_some hpar'
        have hpc : p_fr.c_lu = (if id0 = 0 then s.active_id else id0) ∨
            p_fr.c_rd = (if id0 = 0 then s.active_id else id0) := by
          simpa using List.find?_some hpar'
        have hrhs : ¬((if id0 = 0 then s.active_id else id0) = s.root_id ∨
            (some fr : Option Frame) = none ∨
            ∃ fr', (some fr : Option Frame) = some fr' ∧
              (fr'.c_lu ≠ 0 ∨ fr'.c_rd ≠ 0)) := by
          rintro (hc | hc | ⟨fr', hfr', hc⟩)
          · exact hroot (by rw [hfr_id]; exact hc)
          · exact Option.noConfusion hc
          · injection hfr' with he
            subst he
            rcases hc with hc | hc
            · exact hc hch.1
            · exact hc hch.2
        suffices hsuf : ∃ s2, framesDelete s id0 = some (true, s2) by
          obtain ⟨s2, hs2⟩ := hsuf
          exact ⟨true, s2, hs2, iff_of_false (by simp) hrhs,
            fun hb => absurd hb (by simp)⟩
        by_cases hproot : p_fr.id = s.root_id
        · obtain ⟨k1, k2, k3, k4, k5⟩ :=
            delete_remove_two_inv s (if id0 = 0 then s.active_id else id0)
              fr p_fr h.1 hfind hch.1 hch.2 hpar
          simp only [framesDelete, hfind, hpar]
          rw [if_neg hch', if_neg hroot, if_pos hproot, if_pos hpc]
          by_cases hact : (if id0 = 0 then s.active_id else id0) = s.active_id
          · rw [if_pos hact]
            exact framesNext_map_total _
              (Nat.lt_of_lt_of_le (Nat.zero_lt_succ _) (Nat.le_of_eq k4.symm))
          · rw [if_neg hact]
            exact ⟨_, rfl⟩
        · obtain ⟨pp_fr, hppar⟩ := parent_exists_of_treeInv s h p_fr hp_mem hproot
          have hppar' := hppar
          unfold findParent at hppar'
          have hppc : pp_fr.c_lu = p_fr.id ∨ pp_fr.c_rd = p_fr.id := by
            simpa using List.find?_some hppar'
          obtain ⟨k1, k2, k3, k4, k5⟩ :=
            delete_relink_inv s (if id0 = 0 then s.active_id else id0)
              fr p_fr pp_fr _ h.1 hfind hch.1 hch.2 hpar hppar hppc rfl
          simp only [framesDelete, hfind, hpar, hppar]
          rw [if_neg hch', if_neg hroot, if_neg hproot, if_pos hpc, if_pos hppc]
          by_cases hact : (if id0 = 0 then s.active_id else id0) = s.active_id
          · rw [if_pos hact]
            exact framesNext_map_total _
              (Nat.lt_of_lt_of_le (Nat.zero_lt_succ _) (Nat.le_of_eq k4.symm))
          · rw [if_neg hact]
            exact ⟨_, rfl⟩

/-- C7 witness: deleting the (non-root, childless, existing) leaf 3 of the
once-split state succeeds, and the failure characterisation holds there. -/
theorem framesDelete_failure_spec_witness :
    TreeInv sSplitH ∧
    (∃ b s', framesDelete sSplitH 3 = some (b, s') ∧
      (b = false ↔
        ((if 3 = 0 then sSplitH.active_id else 3) = sSplitH.root_id ∨
         findFrame sSplitH (if 3 = 0 then sSplitH.active_id else 3) = none ∨
         ∃ fr, findFrame sSplitH (if 3 = 0 then sSplitH.active_id else 3) = some fr ∧
           (fr.c_lu ≠ 0 ∨ fr.c_rd ≠ 0))) ∧
      (b = false → s' = sSplitH)) :=
  ⟨by decide, framesDelete_failure_spec sSplitH 3 (by decide)⟩

theorem pyGet_toNat (l : List α) (i : Int) (h0 : 0 ≤ i) :
    pyGet l i = l[i.toNat]? := by
  unfold pyGet pyIdxN
  rw [if_pos h0]
  by_cases h1 : i < (l.length : Int)
  · rw [if_pos h1]
  · rw [if_neg h1, List.getElem?_eq_none (by omega)]

theorem winAux_snd_notmem (active : Nat) (l acc : List Frame) (i : Int)
    (h : ∀ x ∈ l, (x.c_lu == 0 && x.c_rd == 0) = true → x.id ≠ active) :
    (winAux active l acc i).2 = i := by
  induction l generalizing acc i with
  | nil => rfl
  | cons a t ih =>
    simp only [winAux]
    split
    next ha =>
      have hne : ¬(a.id == active) = true := by
        simpa using h a (List.mem_cons_self a t) ha
      rw [ih _ _ (fun x hx hxl => h x (List.mem_cons_of_mem a hx) hxl), if_neg hne]
    next ha =>
      exact ih _ _ (fun x hx hxl => h x (List.mem_cons_of_mem a hx) hxl)

theorem winAux_snd_mem (active : Nat) (l1 l2 acc : List Frame) (i : Int) (g : Frame)
    (hg : (g.c_lu == 0 && g.c_rd == 0) = true) (hgid : g.id = active)
    (h2 : ∀ x ∈ l2, (x.c_lu == 0 && x.c_rd == 0) = true → x.id ≠ active) :
    (winAux active (l1 ++ g :: l2) acc i).2
      = (acc.length : Int)
        + ((l1.filter (fun x => x.c_lu == 0 && x.c_rd == 0)).length : Int) := by
  induction l1 generalizing acc i with
  | nil =>
    simp only [List.nil_append, winAux]
    rw [if_pos hg]
    have hbeq : (g.id == active) = true := by simp [hgid]
    rw [winAux_snd_notmem active l2 _ _ h2, if_pos hbeq]
    simp only [List.length_append, List.length_singleton, List.filter_nil,
      List.length_nil, List.length_cons]
    push_cast
    omega
  | cons a t ih =>
    simp only [List.cons_append, winAux]
    split
    next ha =>
      rw [show t.append (g :: l2) = t ++ g :: l2 from rfl]
      rw [ih _ _, List.filter_cons, if_pos ha]
      simp only [List.length_append, List.length_singleton, List.length_cons,
        List.length_nil]
      push_cast
      omega
    next ha =>
      rw [show t.append (g :: l2) = t ++ g :: l2 from rfl]
      rw [ih _ _, List.filter_cons, if_neg ha]

theorem findIdx?_append_middle_go (p : Nat → Bool) (A B : List Nat) (b st : Nat)
    (hA : ∀ x ∈ A, p x = false) (hb : p b = true) :
    List.findIdx? p (A ++ b :: B) st = some (st + A.length) := by
  induction A generalizing st with
  | nil =>
    rw [List.nil_append, List.findIdx?_cons, if_pos hb, List.length_nil]
    rfl
  | cons a t ih =>
    have ha : ¬(p a = true) := by
      simp [hA a (List.mem_cons_self a t)]
    rw [List.cons_append, List.findIdx?_cons, if_neg ha]
    rw [ih _ (fun x hx => hA x (List.mem_cons_of_mem a hx))]
    simp only [List.length_cons]
    congr 1
    omega

theorem findIdx?_append_middle (p : Nat → Bool) (A B : List Nat) (b : Nat)
    (hA : ∀ x ∈ A, p x = false) (hb : p b = true) :
    (A ++ b :: B).findIdx? p = some A.length := by
  rw [show (A ++ b :: B).findIdx? p = List.findIdx? p (A ++ b :: B) 0 from rfl]
  rw [findIdx?_append_middle_go p A B b 0 hA hb, Nat.zero_add]

/-- C4 counterexample: in the invariant-satisfying state `sInsOrder`
(fresh instance after `split(1)`, `split(2)`, `split(4)` with active leaf
5), the navigation list `win_frames` is the *store-order* `[3, 5, 6, 7]`,
not the pre-order `[6, 7, 5, 3]`, and `next()` moves the active id to 6 —
the store-order successor — not to 3, the pre-order successor. -/
theorem next_preorder_counterexample :
    TreeInv sInsOrder ∧
    winIds sInsOrder = [3, 5, 6, 7] ∧
    preorderLeavesSpec sInsOrder 8 sInsOrder.root_id = [6, 7, 5, 3] ∧
    winIds sInsOrder ≠ preorderLeavesSpec sInsOrder 8 sInsOrder.root_id ∧
    (framesNext sInsOrder).map FramesState.active_id = some 6 ∧
    nextInList (preorderLeavesSpec sInsOrder 8 sInsOrder.root_id)
      sInsOrder.active_id = some 3 ∧
    (some 6 : Option Nat) ≠ some 3 := by
  refine ⟨by decide, by decide, by decide, by decide, by decide, by decide, by decide⟩

/-- C4 (amended): in every state satisfying the tree invariant, `next()`
succeeds and moves `active_id` to the entry following the active leaf in
the *store-order* window list `win_frames` (wrapping from the last entry
to the first); this list is in general *not* the pre-order depth-first
traversal of the leaves. -/
theorem framesNext_follows_win_order (s : FramesState) (h : TreeInv s) :
    ∃ s', framesNext s = some s' ∧
      nextInList (winIds s) s.active_id = some s'.active_id := by
  obtain ⟨⟨h1, h2, h3, h4, h5⟩, hperm⟩ := h
  obtain ⟨g, hgmem, hgid, hglu, hgrd⟩ := h5
  obtain ⟨L1, L2, hL, hL1, hL2⟩ := mem_decomp_nodup s.frames g hgmem h1
  have hgleafb : (g.c_lu == 0 && g.c_rd == 0) = true := by simp [hglu, hgrd]
  have hW : (win_frames s).1
      = s.frames.filter (fun fr => fr.c_lu == 0 && fr.c_rd == 0) := by
    rw [win_frames, winAux_fst, List.nil_append]
  have hWdec : (win_frames s).1
      = L1.filter (fun fr => fr.c_lu == 0 && fr.c_rd == 0) ++ g ::
        L2.filter (fun fr => fr.c_lu == 0 && fr.c_rd == 0) := by
    rw [hW, hL, List.filter_append, List.filter_cons, if_pos hgleafb]
  have hA : (win_frames s).2 =
      (([] : List Frame).length : Int)
        + ((L1.filter (fun x => x.c_lu == 0 && x.c_rd == 0)).length : Int) := by
    rw [win_frames, hL]
    exact winAux_snd_mem s.active_id L1 L2 [] (-1) g hgleafb hgid
      (fun x hx _ hxe => hL2 x hx (hxe.trans hgid.symm))
  have hfidx : (winIds s).findIdx? (fun i => i == s.active_id)
      = some ((L1.filter (fun fr => fr.c_lu == 0 && fr.c_rd == 0)).length) := by
    have hwin : winIds s
        = (L1.filter (fun fr => fr.c_lu == 0 && fr.c_rd == 0)).map Frame.id
          ++ g.id ::
            (L2.filter (fun fr => fr.c_lu == 0 && fr.c_rd == 0)).map Frame.id := by
      rw [winIds, hWdec, List.map_append, List.map_cons]
    rw [hwin]
    rw [findIdx?_append_middle _ _ _ _ (by
        intro x hx
        obtain ⟨y, hy, rfl⟩ := List.mem_map.mp hx
        have hyL1 : y ∈ L1 := List.mem_of_mem_filter hy
        have hyne : y.id ≠ s.active_id := fun he => hL1 y hyL1 (he.trans hgid.symm)
        simpa using hyne)
      (by simp [hgid])]
    rw [List.length_map]
  set F1 := L1.filter (fun fr => fr.c_lu == 0 && fr.c_rd == 0) with hF1
  set F2 := L2.filter (fun fr => fr.c_lu == 0 && fr.c_rd == 0) with hF2
  have hlenW : (win_frames s).1.length = F1.length + 1 + F2.length := by
    rw [hWdec]
    simp only [List.length_append, List.length_cons]
    omega
  have hlenWI : (winIds s).length = (win_frames s).1.length := by
    rw [winIds, List.length_map]
  simp only [framesNext]
  split
  next hlt =>
    have hn2 : 0 < F2.length := by
      rw [hA, hlenW] at hlt
      simp only [List.length_nil] at hlt
      push_cast at hlt
      omega
    have hidx : ((win_frames s).2 + 1).toNat = F1.length + 1 := by
      rw [hA]
      simp only [List.length_nil]
      omega
    have hb1 : F1.length + 1 < (win_frames s).1.length := by
      rw [hlenW]
      exact Nat.lt_add_of_pos_right hn2
    rw [pyGet_toNat _ _ (by rw [hA]; omega)]
    rw [hidx]
    rw [List.getElem?_eq_getElem hb1]
    rw [Option.map_some']
    refine ⟨_, rfl, ?_⟩
    simp only [nextInList, hfidx]
    rw [show (F1.length + 1) % (winIds s).length = F1.length + 1 from by
      rw [hlenWI]
      exact Nat.mod_eq_of_lt hb1]
    rw [show winIds s = (win_frames s).1.map Frame.id from rfl, List.getElem?_map]
    rw [List.getElem?_eq_getElem hb1]
    rw [Option.map_some']
  next hlt =>
    have hn2 : F2.length = 0 := by
      rw [hA, hlenW] at hlt
      simp only [List.length_nil] at hlt
      push_cast at hlt
      omega
    have hpos : 0 < (win_frames s).1.length := by
      rw [hlenW, hn2]
      exact Nat.succ_pos _
    rw [pyGet_toNat _ _ (by omega : (0 : Int) ≤ 0)]
    rw [show ((0 : Int)).toNat = 0 from rfl]
    rw [List.getElem?_eq_getElem hpos]
    rw [Option.map_some']
    refine ⟨_, rfl, ?_⟩
    simp only [nextInList, hfidx]
    rw [show (F1.length + 1) % (winIds s).length = 0 from by
      rw [hlenWI, hlenW, hn2]
      simp [Nat.mod_self]]
    rw [show winIds s = (win_frames s).1.map Frame.id from rfl, List.getElem?_map]
    rw [List.getElem?_eq_getElem hpos]
    rw [Option.map_some']

/-- C4 witness for the amended statement: evaluated on the once-split
state, whose window list is `[2, 3]` with active 2. -/
theorem framesNext_follows_win_order_witness :
    TreeInv sSplitH ∧
    ∃ s', framesNext sSplitH = some s' ∧
      nextInList (winIds sSplitH) sSplitH.active_id = some s'.active_id :=
  ⟨by decide, framesNext_follows_win_order sSplitH (by decide)⟩
